import Mathlib

set_option maxHeartbeats 1000000

/-!
Verification of the prompt-flow designer's core algorithms: the list model
(`normalizeListItems` / `formatNumberedList`), the graph validator
(`validateGeneratedGraph`), the text importer (`parsePromptTextToGraph`),
the layout engine (`layoutGraph` / `autoLayoutNodes`) and the sequencer
(`buildPromptOutput`).  JavaScript strings are modelled as lists of
characters (`Str`); the string operations the source uses (`trim`,
`split`, `join`, the regular expressions) are implemented explicitly below
so that every step of the source can be followed.
-/

namespace PromptFlow

/-- JavaScript strings are modelled as lists of characters. -/
abbrev Str := List Char

/-- The whitespace class used by JavaScript's `trim` and `\s`
(the characters relevant to this code base). -/
def jsIsWs (c : Char) : Bool :=
  c = ' ' || c = '\t' || c = '\n' || c = '\r' || c = '\x0b' || c = '\x0c' ||
  c = '\u00A0' || c = '\u2028' || c = '\u2029' || c = '\uFEFF'

/-- Line terminators, which JavaScript's `.` in a regular expression never
matches. -/
def isLineTerm (c : Char) : Bool :=
  c = '\n' || c = '\r' || c = '\u2028' || c = '\u2029'

/-- JavaScript `String.prototype.trim`. -/
def jsTrim (s : Str) : Str :=
  ((s.dropWhile jsIsWs).reverse.dropWhile jsIsWs).reverse

/-- JavaScript `s.split("\n")`: `"" ↦ [""]`, separators produce empty
fields.  The recursive result is never `[]`, so prepending `c` to its
first field loses nothing. -/
def splitNl : Str → List Str
  | [] => [[]]
  | c :: rest =>
    if c = '\n' then [] :: splitNl rest
    else (c :: (splitNl rest).headD []) :: (splitNl rest).tail

/-- JavaScript `lines.join("\n")`. -/
def joinNl : List Str → Str
  | [] => []
  | [l] => l
  | l :: l' :: ls => l ++ '\n' :: joinNl (l' :: ls)

/-- JavaScript `parts.join(sep)`. -/
def joinSep (sep : Str) : List Str → Str
  | [] => []
  | [l] => l
  | l :: l' :: ls => l ++ sep ++ joinSep sep (l' :: ls)

/-- Decimal digit to character. -/
def digitChar (n : Nat) : Char := Char.ofNat (48 + n)

/-- Decimal rendering of a natural number (JavaScript number-to-string
for the non-negative integers this code produces); fuel-structural. -/
def natToStrAux : Nat → Nat → Str
  | 0, _ => []
  | fuel + 1, n =>
    if n < 10 then [digitChar n] else natToStrAux fuel (n / 10) ++ [digitChar (n % 10)]

/-- Decimal rendering of a natural number. -/
def natToStr (n : Nat) : Str := natToStrAux (n + 1) n

/-! ### The list model (`createListItem`, `normalizeListItems`, `formatNumberedList`) -/

/-- `Math.max(1, Math.min(3, Number(level) || 1))` from the source: a falsy
level (0, or an absent field encoded as 0 by the caller) coerces to 1, then
the value is clamped into `[1, 3]`. -/
def clampLevel (level : Int) : Int :=
  max 1 (min 3 (if level = 0 then 1 else level))

/-- A fully-formed list item. -/
structure ListItem where
  id : Str
  text : Str
  level : Int
deriving DecidableEq, Repr

/-- `createListItem` from the source.  Its id `li-${Date.now()}-${random}`
is a fresh opaque token that is never read by any verified operation; it is
modelled by the fixed token `li-fresh`. -/
def createListItem (text : Str) (level : Int) : ListItem :=
  { id := "li-fresh".data, text := text, level := clampLevel level }

/-- An element of the heterogeneous arrays accepted by `normalizeListItems`:
a plain string, or a partially-formed record whose absent fields are
`none`. -/
inductive RawItem where
  | str (s : Str)
  | obj (id : Option Str) (text : Option Str) (level : Option Int)
deriving DecidableEq, Repr

/-- View of a fully-formed item as a record, for passing item lists back
into the duck-typed entry points. -/
def ListItem.raw (it : ListItem) : RawItem :=
  .obj (some it.id) (some it.text) (some it.level)

/-- `rest.span isDigit` split used by the dotted-number matchers
(`\d+` groups). -/
def spanDigits (s : Str) : Str × Str :=
  (s.takeWhile Char.isDigit, s.dropWhile Char.isDigit)

/-- The `(?:\.\d+)*` groups of the dotted-number matchers: greedily take
`"." digits` groups, returning the digit groups and the rest. -/
def takeDotGroupsAux : Nat → Str → (List Str × Str)
  | 0, s => ([], s)
  | fuel + 1, s =>
    match s with
    | '.' :: rest =>
      if (spanDigits rest).1 = [] then ([], '.' :: rest)
      else
        let p := takeDotGroupsAux fuel (spanDigits rest).2
        ((spanDigits rest).1 :: p.1, p.2)
    | _ => ([], s)

/-- `\s+(.+)$` with JavaScript semantics: at least one whitespace
character, then a non-empty suffix free of line terminators (the suffix is
what `(.+)` captures; when the whole rest is whitespace the greedy `\s+`
backs off one character). -/
def matchTail (s : Str) : Option Str :=
  let ws := s.takeWhile jsIsWs
  let t := s.dropWhile jsIsWs
  if ws = [] then none
  else if t ≠ [] then
    if t.any isLineTerm then none else some t
  else
    match s.reverse with
    | last :: _ :: _ => if isLineTerm last then none else some [last]
    | _ => none

/-- `^(\d+(?:\.\d+)*)(?:P)?\s+(.+)$` where `P` is a class of optional
punctuation (`\.` in `normalizeListItems`, `[.)]` in the outline importer):
returns the dot-separated digit groups of the leading token and the
captured text. -/
def matchNumbered (optPunct : List Char) (line : Str) : Option (List Str × Str) :=
  if (spanDigits line).1 = [] then none
  else
    let p := takeDotGroupsAux (spanDigits line).2.length (spanDigits line).2
    let tail := match p.2 with
      | c :: cs => if c ∈ optPunct then matchTail cs else matchTail p.2
      | [] => none
    match tail with
    | none => none
    | some text => some ((spanDigits line).1 :: p.1, text)

/-- One line of the fallback-text branch of `normalizeListItems`: a line
with a leading dotted-number token becomes an item whose level is the
number of dot-separated segments, any other line a level-1 item. -/
def normalizeLine (line : Str) : ListItem :=
  match matchNumbered ['.'] line with
  | some (segs, text) => createListItem text (segs.length : Int)
  | none => createListItem line 1

/-- `normalizeListItems(items, fallbackContent)` from the source. -/
def normalizeListItems (items : List RawItem) (fallbackContent : Str) : List ListItem :=
  if items ≠ [] then
    items.map fun item =>
      match item with
      | .str s => createListItem s 1
      | .obj id text level =>
        { id := match id with
            | some i => if i ≠ [] then i else (createListItem [] 1).id
            | none => (createListItem [] 1).id
          text := text.getD []
          level := clampLevel (level.getD 0) }
  else
    let lines := ((splitNl fallbackContent).map jsTrim).filter (· ≠ [])
    if lines ≠ [] then lines.map normalizeLine
    else [createListItem [] 1]

/-- `counters[level-1] += 1` followed by zeroing every counter at index
`≥ level`. -/
def bumpCounters (counters : List Nat) (level : Nat) : List Nat :=
  (counters.set (level - 1) (counters.getD (level - 1) 0 + 1)).mapIdx
    fun i c => if level ≤ i then 0 else c

/-- The body of `formatNumberedList`'s `map`, threading the counter
state: each item yields its rendered line (`""` for items whose trimmed
text is empty, which nevertheless bump the counters). -/
def formatLines (counters : List Nat) : List ListItem → List Str
  | [] => []
  | item :: rest =>
    let level := (max 1 (min 3 item.level)).toNat
    let counters' := bumpCounters counters level
    let token := joinSep ['.'] ((counters'.take level).map natToStr)
    let text := jsTrim item.text
    let line := if text = [] then [] else token ++ ' ' :: text
    line :: formatLines counters' rest

/-- `formatNumberedList(items)` from the source: normalize, render each
item, drop the empty renderings, join with newlines. -/
def formatNumberedList (items : List RawItem) : Str :=
  joinNl ((formatLines [0, 0, 0] (normalizeListItems items [])).filter (· ≠ []))

/-! ### Graphs and the validator (`validateGeneratedGraph`) -/

/-- A node of the canonical graph exchanged with the importer, generator
and validator.  `role` is a plain string, as in the JSON wire format. -/
structure GNode where
  id : Str
  role : Str
  label : Str
  content : Str
deriving DecidableEq, Repr

/-- An edge of the canonical graph (`from`/`to` node ids). -/
structure GEdge where
  «from» : Str
  «to» : Str
deriving DecidableEq, Repr

/-- The canonical graph shape `{nodes, edges}`. -/
structure Graph where
  nodes : List GNode
  edges : List GEdge
deriving DecidableEq, Repr

/-- The role strings the validator accepts. -/
def validRoles : List Str := ["system".data, "user".data, "assistant".data]

/-- The node ids of a graph, in node order. -/
def nodeIds (g : Graph) : List Str := g.nodes.map (·.id)

/-- The per-node pass of `validateGeneratedGraph`, threading the set of
ids already seen; first failure wins.  (The JavaScript `typeof` checks on
`id`/`label`/`content` hold by typing here; the value-level parts — a
non-empty id, a non-blank content — are kept.) -/
def checkNodesAux : List GNode → List Str → Option Str
  | [], _ => none
  | n :: rest, seen =>
    if n.id = [] then
      some "Invalid node: every node must have a string `id`.".data
    else if n.id ∈ seen then
      some ("Invalid flow: duplicate node id '".data ++ n.id ++ "'.".data)
    else if n.role ∉ validRoles then
      some ("Invalid node '".data ++ n.id ++ "': role must be system, user, or assistant.".data)
    else if jsTrim n.content = [] then
      some ("Invalid node '".data ++ n.id ++ "': content cannot be empty.".data)
    else checkNodesAux rest (seen ++ [n.id])

/-- The per-edge pass of `validateGeneratedGraph`: string endpoints,
referencing known ids, no self-loop; first failure wins. -/
def checkEdgesAux (ids : List Str) : List GEdge → Option Str
  | [] => none
  | e :: rest =>
    if e.«from» = [] ∨ e.«to» = [] then
      some "Invalid edge: each edge must include string `from` and `to`.".data
    else if e.«from» ∉ ids ∨ e.«to» ∉ ids then
      some ("Invalid edge: '".data ++ e.«from» ++ "' -> '".data ++ e.«to» ++
        "' references missing node ids.".data)
    else if e.«from» = e.«to» then
      some ("Invalid edge: self-loop found on '".data ++ e.«from» ++ "'.".data)
    else checkEdgesAux ids rest

/-- The `degree` count the validator accumulates for a node id: one per
occurrence of the id as an edge endpoint. -/
def degreeOf (edges : List GEdge) (id : Str) : Nat :=
  (edges.countP fun e => decide (e.«from» = id)) + (edges.countP fun e => decide (e.«to» = id))

/-- The `indegree` count for a node id. -/
def indegOf (edges : List GEdge) (id : Str) : Nat :=
  edges.countP fun e => decide (e.«to» = id)

/-- The `outgoing` adjacency list for a node id, in edge order. -/
def outgoingOf (edges : List GEdge) (id : Str) : List Str :=
  (edges.filter fun e => decide (e.«from» = id)).map (·.«to»)

/-- The orphan search `graph.nodes.find((n) => degree.get(n.id) === 0)`. -/
def findOrphan (g : Graph) : Option GNode :=
  g.nodes.find? fun n => decide (degreeOf g.edges n.id = 0)

/-- Kahn's inner edge loop for one dequeued node: decrement each target's
count in order, collecting (in order) the targets whose count reaches
exactly zero — the queue pushes. -/
def processTargets : List Str → (Str → Int) → ((Str → Int) × List Str)
  | [], indeg => (indeg, [])
  | t :: ts, indeg =>
    let v := indeg t - 1
    let p := processTargets ts (Function.update indeg t v)
    if v = 0 then (p.1, t :: p.2) else p

/-- Kahn's queue loop, returning the dequeued ids in dequeue order (the
JavaScript `visited` counter is the length of this list).  The loop
dequeues at most once per enqueue and every id is enqueued at most once,
so any fuel beyond `nodes + edges + 1` never runs out before the queue
empties. -/
def kahnLoop (out : Str → List Str) : Nat → List Str → (Str → Int) → List Str
  | 0, _, _ => []
  | _ + 1, [], _ => []
  | fuel + 1, id :: queue, indeg =>
    let p := processTargets (out id) indeg
    id :: kahnLoop out fuel (queue ++ p.2) p.1

/-- The initial `indegree` map (every node starts at 0, incremented once
per incoming edge; absent keys read as 0). -/
def initialIndeg (edges : List GEdge) : Str → Int :=
  fun id => (indegOf edges id : Int)

/-- The number of nodes Kahn's algorithm dequeues on a graph. -/
def kahnVisited (g : Graph) : Nat :=
  (kahnLoop (outgoingOf g.edges) (g.nodes.length + g.edges.length + 1)
    ((nodeIds g).filter fun id => decide (initialIndeg g.edges id = 0))
    (initialIndeg g.edges)).length

/-- `validateGeneratedGraph` from the source: `none` means accepted.
The JavaScript shape checks that are about dynamic typing (root is an
object, `nodes`/`edges` are arrays, `label` is a string) hold by typing
in this model; all value-level checks are kept. -/
def validateGeneratedGraph (g : Graph) : Option Str :=
  if g.nodes = [] then some "Invalid flow: at least one node is required.".data
  else match checkNodesAux g.nodes [] with
  | some e => some e
  | none =>
    match checkEdgesAux (nodeIds g) g.edges with
    | some e => some e
    | none =>
      match (if 1 < g.nodes.length then findOrphan g else none) with
      | some n => some ("Invalid flow: orphan node '".data ++ n.id ++ "' has no edges.".data)
      | none =>
        if kahnVisited g = g.nodes.length then none
        else some "Invalid flow: graph must be directed and acyclic.".data

/-! ### The structural predicates of the specification -/

/-- The edge relation of a graph: `a` steps to `b` when some edge goes
from `a` to `b`. -/
def edgeRel (edges : List GEdge) (a b : Str) : Prop :=
  ∃ e ∈ edges, e.«from» = a ∧ e.«to» = b

/-- A graph is acyclic when no node reaches itself through a non-empty
chain of edges. -/
def Acyclic (edges : List GEdge) : Prop :=
  ∀ a, ¬ Relation.TransGen (edgeRel edges) a a

/-- All node ids are distinct. -/
def UniqueIds (g : Graph) : Prop := (nodeIds g).Nodup

/-- Every node's role is one of system, user, assistant. -/
def ValidRolesP (g : Graph) : Prop := ∀ n ∈ g.nodes, n.role ∈ validRoles

/-- Every edge references existing node ids. -/
def EdgesRef (g : Graph) : Prop :=
  ∀ e ∈ g.edges, e.«from» ∈ nodeIds g ∧ e.«to» ∈ nodeIds g

/-- No orphan: every node occurs in at least one edge. -/
def NoOrphans (g : Graph) : Prop :=
  ∀ n ∈ g.nodes, ∃ e ∈ g.edges, e.«from» = n.id ∨ e.«to» = n.id

/-! ### Correctness of the validator's Kahn pass -/

/-- All edge endpoints lie in a given id list. -/
def EdgesWithin (edges : List GEdge) (ids : List Str) : Prop :=
  ∀ e ∈ edges, e.«from» ∈ ids ∧ e.«to» ∈ ids

/-- The number of edges into `t` whose source has not been dequeued yet
(`D` is the list of dequeued ids): the semantic value of the mutable
`indegree` counter. -/
def remInDeg (edges : List GEdge) (D : List Str) (t : Str) : Nat :=
  edges.countP fun e => decide (e.«to» = t ∧ e.«from» ∉ D)

/-- The number of edges from `s` to `t`. -/
def cntEdge (edges : List GEdge) (s t : Str) : Nat :=
  edges.countP fun e => decide (e.«from» = s ∧ e.«to» = t)

theorem outgoingOf_count (edges : List GEdge) (s t : Str) :
    (outgoingOf edges s).count t = cntEdge edges s t := by
  induction edges with
  | nil => rfl
  | cons e rest ih =>
    by_cases hf : e.«from» = s <;>
      by_cases ht : e.«to» = t <;>
        simp [outgoingOf, cntEdge, List.countP_cons, List.count_cons, hf, ht] at ih ⊢ <;>
          omega

theorem mem_outgoingOf {edges : List GEdge} {s t : Str} :
    t ∈ outgoingOf edges s ↔ ∃ e ∈ edges, e.«from» = s ∧ e.«to» = t := by
  simp only [outgoingOf, List.mem_map, List.mem_filter, decide_eq_true_eq]
  constructor
  · rintro ⟨e, ⟨he, hf⟩, ht⟩; exact ⟨e, he, hf, ht⟩
  · rintro ⟨e, he, hf, ht⟩; exact ⟨e, ⟨he, hf⟩, ht⟩

theorem remInDeg_nil (edges : List GEdge) (t : Str) :
    remInDeg edges [] t = indegOf edges t := by
  unfold remInDeg indegOf
  refine List.countP_congr fun e _ => ?_
  simp

theorem remInDeg_snoc {edges : List GEdge} {D : List Str} {s : Str} (hs : s ∉ D) (t : Str) :
    remInDeg edges D t = remInDeg edges (D ++ [s]) t + cntEdge edges s t := by
  induction edges with
  | nil => rfl
  | cons e rest ih =>
    unfold remInDeg cntEdge at ih ⊢
    simp only [List.countP_cons]
    by_cases ht : e.«to» = t <;> by_cases hf : e.«from» = s <;>
      by_cases hD : e.«from» ∈ D <;>
        simp_all [List.mem_append] <;> omega

theorem remInDeg_eq_zero_iff {edges : List GEdge} {D : List Str} {t : Str} :
    remInDeg edges D t = 0 ↔ ∀ e ∈ edges, e.«to» = t → e.«from» ∈ D := by
  unfold remInDeg
  rw [List.countP_eq_zero]
  constructor
  · intro h e he ht
    have := h e he
    simp only [decide_eq_true_eq, not_and, not_not] at this
    exact this ht
  · intro h e he
    simp only [decide_eq_true_eq, not_and, not_not]
    exact h e he

theorem remInDeg_pos_iff {edges : List GEdge} {D : List Str} {t : Str} :
    1 ≤ remInDeg edges D t ↔ ∃ e ∈ edges, e.«to» = t ∧ e.«from» ∉ D := by
  rw [Nat.one_le_iff_ne_zero, Ne, remInDeg_eq_zero_iff]
  push_neg
  rfl

theorem processTargets_cons_zero {u : Str} {ts : List Str} {indeg : Str → Int}
    (hv : indeg u - 1 = 0) :
    processTargets (u :: ts) indeg =
      ((processTargets ts (Function.update indeg u (indeg u - 1))).1,
        u :: (processTargets ts (Function.update indeg u (indeg u - 1))).2) := by
  simp [processTargets, hv]

theorem processTargets_cons_ne {u : Str} {ts : List Str} {indeg : Str → Int}
    (hv : ¬ indeg u - 1 = 0) :
    processTargets (u :: ts) indeg =
      processTargets ts (Function.update indeg u (indeg u - 1)) := by
  simp [processTargets, hv]

theorem processTargets_fst (ts : List Str) (indeg : Str → Int) (t : Str) :
    (processTargets ts indeg).1 t = indeg t - (ts.count t : Int) := by
  induction ts generalizing indeg with
  | nil => simp [processTargets]
  | cons u ts ih =>
    have key : (processTargets ts (Function.update indeg u (indeg u - 1))).1 t =
        indeg t - ((u :: ts).count t : Int) := by
      rw [ih]
      by_cases htu : t = u
      · subst htu
        rw [Function.update_same, List.count_cons_self]
        push_cast
        omega
      · rw [Function.update_noteq htu, List.count_cons_of_ne htu]
    by_cases hv : indeg u - 1 = 0
    · rw [processTargets_cons_zero hv]; exact key
    · rw [processTargets_cons_ne hv]; exact key

theorem processTargets_mem (ts : List Str) (indeg : Str → Int) (t : Str) :
    t ∈ (processTargets ts indeg).2 ↔ 1 ≤ indeg t ∧ indeg t ≤ (ts.count t : Int) := by
  induction ts generalizing indeg with
  | nil =>
    simp only [processTargets, List.not_mem_nil, List.count_nil, Nat.cast_zero, false_iff,
      not_and]
    omega
  | cons u ts ih =>
    by_cases htu : t = u
    · subst htu
      by_cases hv : indeg t - 1 = 0
      · rw [processTargets_cons_zero hv]
        simp only [List.mem_cons, List.count_cons_self]
        constructor
        · intro _
          push_cast
          omega
        · intro _
          exact Or.inl trivial
      · rw [processTargets_cons_ne hv, ih, Function.update_same, List.count_cons_self]
        push_cast
        omega
    · have key : (t ∈ (processTargets ts (Function.update indeg u (indeg u - 1))).2) ↔
          (1 ≤ indeg t ∧ indeg t ≤ ((u :: ts).count t : Int)) := by
        rw [ih, Function.update_noteq htu, List.count_cons_of_ne htu]
      by_cases hv : indeg u - 1 = 0
      · rw [processTargets_cons_zero hv]
        simp only [List.mem_cons, htu, false_or]
        exact key
      · rw [processTargets_cons_ne hv]; exact key

theorem processTargets_nodup (ts : List Str) (indeg : Str → Int) :
    (processTargets ts indeg).2.Nodup := by
  induction ts generalizing indeg with
  | nil => simp [processTargets]
  | cons u ts ih =>
    by_cases hv : indeg u - 1 = 0
    · rw [processTargets_cons_zero hv]
      refine List.nodup_cons.mpr ⟨?_, ih _⟩
      rw [processTargets_mem, Function.update_same]
      omega
    · rw [processTargets_cons_ne hv]; exact ih _

theorem processTargets_mem_ts {ts : List Str} {indeg : Str → Int} {t : Str}
    (h : t ∈ (processTargets ts indeg).2) : t ∈ ts := by
  rw [processTargets_mem] at h
  have hc : 0 < ts.count t := by omega
  exact List.count_pos_iff.mp hc

/-- The loop invariant of the Kahn pass.  `D` is the list of dequeued ids
(in dequeue order), `queue` the pending queue, `indeg` the mutable
counter map. -/
structure KahnInv (edges : List GEdge) (ids D queue : List Str) (indeg : Str → Int) : Prop where
  nodup : (D ++ queue).Nodup
  memIds : ∀ x ∈ D ++ queue, x ∈ ids
  closed : ∀ x ∈ D ++ queue, ∀ e ∈ edges, e.«to» = x → e.«from» ∈ D
  indegEq : ∀ t, indeg t = (remInDeg edges D t : Int)
  blocked : ∀ x ∈ ids, x ∉ D ++ queue → 1 ≤ remInDeg edges D x

theorem kahnInv_step {edges : List GEdge} {ids D queue : List Str} {indeg : Str → Int}
    {s : Str} (hE : EdgesWithin edges ids)
    (inv : KahnInv edges ids D (s :: queue) indeg) :
    KahnInv edges ids (D ++ [s]) (queue ++ (processTargets (outgoingOf edges s) indeg).2)
      (processTargets (outgoingOf edges s) indeg).1 := by
  have hsD : s ∉ D := by
    have := inv.nodup
    rw [List.nodup_append] at this
    exact fun h => this.2.2 h (List.mem_cons_self _ _)
  have hcnt : ∀ t, (outgoingOf edges s).count t = cntEdge edges s t := outgoingOf_count edges s
  have hrem : ∀ t, remInDeg edges D t = remInDeg edges (D ++ [s]) t + cntEdge edges s t :=
    remInDeg_snoc hsD
  have hmemE : ∀ t, t ∈ (processTargets (outgoingOf edges s) indeg).2 ↔
      1 ≤ (remInDeg edges D t : Int) ∧
        (remInDeg edges D t : Int) ≤ (cntEdge edges s t : Int) := by
    intro t
    rw [processTargets_mem, inv.indegEq, hcnt]
  -- a dequeued-or-queued id has no undeleted incoming edge
  have hzero : ∀ x ∈ D ++ s :: queue, remInDeg edges D x = 0 := by
    intro x hx
    exact remInDeg_eq_zero_iff.mpr fun e he ht => inv.closed x hx e he ht
  -- newly enqueued ids are fresh
  have hfresh : ∀ t ∈ (processTargets (outgoingOf edges s) indeg).2, t ∉ D ++ s :: queue := by
    intro t ht hmem
    have h1 := (hmemE t).mp ht
    have h0 := hzero t hmem
    omega
  have hnewzero : ∀ t ∈ (processTargets (outgoingOf edges s) indeg).2,
      remInDeg edges (D ++ [s]) t = 0 := by
    intro t ht
    have h1 := (hmemE t).mp ht
    have h2 := hrem t
    omega
  refine ⟨?_, ?_, ?_, ?_, ?_⟩
  · -- nodup
    have hperm : D ++ [s] ++ (queue ++ (processTargets (outgoingOf edges s) indeg).2) =
        (D ++ s :: queue) ++ (processTargets (outgoingOf edges s) indeg).2 := by
      simp
    rw [hperm, List.nodup_append]
    exact ⟨inv.nodup, processTargets_nodup _ _, fun a ha ha' => hfresh a ha' ha⟩
  · -- membership in ids
    intro x hx
    rcases List.mem_append.mp hx with hx | hx
    · rcases List.mem_append.mp hx with hx | hx
      · exact inv.memIds x (List.mem_append.mpr (Or.inl hx))
      · rcases List.mem_singleton.mp hx with rfl
        exact inv.memIds x (List.mem_append.mpr (Or.inr (List.mem_cons_self _ _)))
    · rcases List.mem_append.mp hx with hx | hx
      · exact inv.memIds x (List.mem_append.mpr (Or.inr (List.mem_cons_of_mem _ hx)))
      · obtain ⟨e, he, _, ht⟩ := mem_outgoingOf.mp (processTargets_mem_ts hx)
        exact ht ▸ (hE e he).2
  · -- closedness
    intro x hx e he ht
    rcases List.mem_append.mp hx with hx | hx
    · rcases List.mem_append.mp hx with hx | hx
      · exact List.mem_append.mpr (Or.inl (inv.closed x (List.mem_append.mpr (Or.inl hx)) e he ht))
      · rcases List.mem_singleton.mp hx with rfl
        exact List.mem_append.mpr
          (Or.inl (inv.closed x (List.mem_append.mpr (Or.inr (List.mem_cons_self _ _))) e he ht))
    · rcases List.mem_append.mp hx with hx | hx
      · exact List.mem_append.mpr
          (Or.inl (inv.closed x (List.mem_append.mpr (Or.inr (List.mem_cons_of_mem _ hx))) e he ht))
      · exact remInDeg_eq_zero_iff.mp (hnewzero x hx) e he ht
  · -- the counter map tracks the remaining in-degrees
    intro t
    rw [processTargets_fst, inv.indegEq, hcnt]
    have := hrem t
    omega
  · -- ids outside the structures still have an incoming edge pending
    intro x hxids hx
    have hx1 : x ∉ D ++ s :: queue := by
      intro h
      rcases List.mem_append.mp h with h | h
      · exact hx (List.mem_append.mpr (Or.inl (List.mem_append.mpr (Or.inl h))))
      · rcases List.mem_cons.mp h with rfl | h
        · exact hx (List.mem_append.mpr (Or.inl (List.mem_append.mpr (Or.inr (List.mem_cons_self _ _)))))
        · exact hx (List.mem_append.mpr (Or.inr (List.mem_append.mpr (Or.inl h))))
    have hx2 : x ∉ (processTargets (outgoingOf edges s) indeg).2 := by
      intro h
      exact hx (List.mem_append.mpr (Or.inr (List.mem_append.mpr (Or.inr h))))
    have hb := inv.blocked x hxids hx1
    rw [hmemE] at hx2
    have := hrem x
    omega

/-- Position of the first occurrence of `a` in `l`. -/
def idxIn (l : List Str) (a : Str) : Nat :=
  l.findIdx fun x => decide (x = a)

theorem idxIn_cons_self (a : Str) (l : List Str) : idxIn (a :: l) a = 0 := by
  simp [idxIn, List.findIdx_cons]

theorem idxIn_cons_ne {s a : Str} (l : List Str) (h : s ≠ a) :
    idxIn (s :: l) a = idxIn l a + 1 := by
  simp [idxIn, List.findIdx_cons, h]

/-- `a` occurs strictly before `b` in `l`. -/
def Before (l : List Str) (a b : Str) : Prop :=
  a ∈ l ∧ b ∈ l ∧ idxIn l a < idxIn l b

theorem Before.trans {l : List Str} {a b c : Str} (h₁ : Before l a b) (h₂ : Before l b c) :
    Before l a c :=
  ⟨h₁.1, h₂.2.1, lt_trans h₁.2.2 h₂.2.2⟩

theorem before_cons {l : List Str} {s a b : Str} (hs : s ∉ l) (h : Before l a b) :
    Before (s :: l) a b := by
  have has : s ≠ a := fun hsa => hs (hsa ▸ h.1)
  have hbs : s ≠ b := fun hsb => hs (hsb ▸ h.2.1)
  refine ⟨List.mem_cons_of_mem _ h.1, List.mem_cons_of_mem _ h.2.1, ?_⟩
  rw [idxIn_cons_ne _ has, idxIn_cons_ne _ hbs]
  have := h.2.2
  omega

theorem before_head {l : List Str} {s b : Str} (hs : s ∉ l) (hb : b ∈ l) :
    Before (s :: l) s b := by
  have hbs : s ≠ b := fun hsb => hs (hsb ▸ hb)
  refine ⟨List.mem_cons_self _ _, List.mem_cons_of_mem _ hb, ?_⟩
  rw [idxIn_cons_self, idxIn_cons_ne _ hbs]
  omega

/-- A relation entirely contained in the strict order of a list admits no
non-empty cycles. -/
theorem acyclic_of_before {edges : List GEdge} {L : List Str}
    (h : ∀ e ∈ edges, Before L e.«from» e.«to») : Acyclic edges := by
  intro a hcyc
  have hstep : ∀ x y, edgeRel edges x y → Before L x y := by
    rintro x y ⟨e, he, hf, ht⟩
    exact hf ▸ ht ▸ h e he
  have htrans : ∀ x y, Relation.TransGen (edgeRel edges) x y → Before L x y := by
    intro x y hxy
    induction hxy with
    | single h' => exact hstep _ _ h'
    | tail _ h' ih => exact ih.trans (hstep _ _ h')
  exact absurd (htrans a a hcyc).2.2 (lt_irrefl _)

/-- In a finite non-empty set in which every element has a predecessor in
the set, some element lies on a cycle. -/
theorem exists_cycle_of_preds {R : Str → Str → Prop} {S : List Str} {x₀ : Str}
    (hx₀ : x₀ ∈ S) (h : ∀ x ∈ S, ∃ y, y ∈ S ∧ R y x) :
    ∃ a, Relation.TransGen R a a := by
  classical
  let f : Str → Str := fun x => if hx : x ∈ S then (h x hx).choose else x
  have hf : ∀ x, x ∈ S → f x ∈ S ∧ R (f x) x := by
    intro x hx
    have : f x = (h x hx).choose := dif_pos hx
    rw [this]
    exact ⟨(h x hx).choose_spec.1, (h x hx).choose_spec.2⟩
  have hiter : ∀ k, f^[k] x₀ ∈ S := by
    intro k
    induction k with
    | zero => exact hx₀
    | succ k ih =>
      rw [Function.iterate_succ_apply']
      exact (hf _ ih).1
  have hmaps : ∀ k ∈ Finset.range (S.length + 1), f^[k] x₀ ∈ S.toFinset := by
    intro k _
    exact List.mem_toFinset.mpr (hiter k)
  have hcard : S.toFinset.card < (Finset.range (S.length + 1)).card := by
    rw [Finset.card_range]
    exact Nat.lt_succ_of_le S.toFinset_card_le
  obtain ⟨i, _, j, _, hij, heq⟩ :=
    Finset.exists_ne_map_eq_of_card_lt_of_maps_to hcard hmaps
  have main : ∀ a b : Nat, a < b → f^[a] x₀ = f^[b] x₀ → ∃ c, Relation.TransGen R c c := by
    intro a b hlt heq'
    refine ⟨f^[a] x₀, ?_⟩
    have hy : ∀ m, f^[m] (f^[a] x₀) ∈ S := by
      intro m
      rw [← Function.iterate_add_apply]
      exact hiter (m + a)
    have hchain : ∀ k, Relation.TransGen R (f^[k + 1] (f^[a] x₀)) (f^[a] x₀) := by
      intro k
      induction k with
      | zero =>
        rw [Function.iterate_one]
        exact Relation.TransGen.single (hf _ (hy 0)).2
      | succ k ih =>
        rw [Function.iterate_succ_apply']
        exact Relation.TransGen.head (hf _ (hy (k + 1))).2 ih
    have hfix : f^[b - a] (f^[a] x₀) = f^[a] x₀ := by
      rw [← Function.iterate_add_apply]
      have hba : b - a + a = b := by omega
      rw [hba, ← heq']
    have hc := hchain (b - a - 1)
    have hsub : b - a - 1 + 1 = b - a := by omega
    rw [hsub, hfix] at hc
    exact hc
  rcases Nat.lt_or_ge i j with hlt | hge
  · exact main i j hlt heq
  · have hlt : j < i := by omega
    exact main j i hlt heq.symm

theorem length_le_of_nodup_subset {l l' : List Str} (h : l.Nodup) (hs : ∀ x ∈ l, x ∈ l') :
    l.length ≤ l'.length := by
  calc l.length = l.toFinset.card := (List.toFinset_card_of_nodup h).symm
  _ ≤ l'.toFinset.card :=
      Finset.card_le_card fun x hx => List.mem_toFinset.mpr (hs x (List.mem_toFinset.mp hx))
  _ ≤ l'.length := l'.toFinset_card_le

theorem subset_of_card_ge {D ids : List Str} (hnd : D.Nodup) (hsub : ∀ x ∈ D, x ∈ ids)
    (hlen : ids.length ≤ D.length) : ∀ x ∈ ids, x ∈ D := by
  have hDf : D.toFinset.card = D.length := List.toFinset_card_of_nodup hnd
  have hsubF : D.toFinset ⊆ ids.toFinset := fun x hx =>
    List.mem_toFinset.mpr (hsub x (List.mem_toFinset.mp hx))
  have hcard : ids.toFinset.card ≤ D.toFinset.card := by
    have := ids.toFinset_card_le
    omega
  have heq : D.toFinset = ids.toFinset := Finset.eq_of_subset_of_card_le hsubF hcard
  intro x hx
  have hxf : x ∈ ids.toFinset := List.mem_toFinset.mpr hx
  rw [← heq] at hxf
  exact List.mem_toFinset.mp hxf

theorem kahnLoop_topo {edges : List GEdge} {ids : List Str} (hE : EdgesWithin edges ids) :
    ∀ (fuel : Nat) (queue : List Str) (indeg : Str → Int) (D : List Str),
      KahnInv edges ids D queue indeg →
      ((D ++ kahnLoop (outgoingOf edges) fuel queue indeg).Nodup ∧
        (∀ x ∈ kahnLoop (outgoingOf edges) fuel queue indeg, x ∈ ids) ∧
        (∀ e ∈ edges, e.«to» ∈ kahnLoop (outgoingOf edges) fuel queue indeg →
          e.«from» ∈ D ∨ Before (kahnLoop (outgoingOf edges) fuel queue indeg)
            e.«from» e.«to»)) := by
  intro fuel
  induction fuel with
  | zero =>
    intro queue indeg D inv
    refine ⟨?_, by simp [kahnLoop], by simp [kahnLoop]⟩
    have := (List.nodup_append.mp inv.nodup).1
    simpa [kahnLoop] using this
  | succ fuel ih =>
    intro queue indeg D inv
    match queue with
    | [] =>
      refine ⟨?_, by simp [kahnLoop], by simp [kahnLoop]⟩
      have := (List.nodup_append.mp inv.nodup).1
      simpa [kahnLoop] using this
    | s :: queue =>
      have hstep := kahnInv_step hE inv
      have hunf : kahnLoop (outgoingOf edges) (fuel + 1) (s :: queue) indeg =
          s :: kahnLoop (outgoingOf edges) fuel
            (queue ++ (processTargets (outgoingOf edges s) indeg).2)
            (processTargets (outgoingOf edges s) indeg).1 := rfl
      obtain ⟨ihN, ihI, ihT⟩ := ih _ _ (D ++ [s]) hstep
      rw [hunf]
      have hsL' : s ∉ kahnLoop (outgoingOf edges) fuel
          (queue ++ (processTargets (outgoingOf edges s) indeg).2)
          (processTargets (outgoingOf edges s) indeg).1 := by
        rw [List.nodup_append] at ihN
        exact fun h => ihN.2.2 (by simp) h
      refine ⟨?_, ?_, ?_⟩
      · have harr : D ++ s :: kahnLoop (outgoingOf edges) fuel
            (queue ++ (processTargets (outgoingOf edges s) indeg).2)
            (processTargets (outgoingOf edges s) indeg).1 =
            (D ++ [s]) ++ kahnLoop (outgoingOf edges) fuel
              (queue ++ (processTargets (outgoingOf edges s) indeg).2)
              (processTargets (outgoingOf edges s) indeg).1 := by simp
        rw [harr]
        exact ihN
      · intro x hx
        rcases List.mem_cons.mp hx with rfl | hx
        · exact inv.memIds x (List.mem_append.mpr (Or.inr (List.mem_cons_self _ _)))
        · exact ihI x hx
      · intro e he ht
        rcases List.mem_cons.mp ht with hts | ht'
        · exact Or.inl
            (inv.closed s (List.mem_append.mpr (Or.inr (List.mem_cons_self _ _))) e he hts)
        · rcases ihT e he ht' with hf | hf
          · rcases List.mem_append.mp hf with hf | hf
            · exact Or.inl hf
            · rcases List.mem_singleton.mp hf with hfs
              rw [hfs]
              exact Or.inr (before_head hsL' ht')
          · exact Or.inr (before_cons hsL' hf)

/-- When no unprocessed node remains reachable through the queue, the
dequeued set already covers all ids — otherwise the leftover nodes would
all have pending predecessors among themselves, forming a cycle. -/
theorem kahn_empty_case {edges : List GEdge} {ids : List Str} (hE : EdgesWithin edges ids)
    (hA : Acyclic edges) :
    ∀ (queue : List Str) (indeg : Str → Int) (D : List Str),
      KahnInv edges ids D queue indeg → (∀ x ∈ ids, x ∉ D → x ∉ queue) →
      ∀ x ∈ ids, x ∈ D := by
  intro queue indeg D inv hq x hx
  by_contra hxD
  have hS : ∀ y ∈ ids.filter (fun z => decide (z ∉ D)),
      ∃ w, w ∈ ids.filter (fun z => decide (z ∉ D)) ∧ edgeRel edges w y := by
    intro y hy
    rw [List.mem_filter, decide_eq_true_eq] at hy
    have hyq : y ∉ D ++ queue := by
      intro hmem
      rcases List.mem_append.mp hmem with h | h
      · exact hy.2 h
      · exact hq y hy.1 hy.2 h
    have hb := inv.blocked y hy.1 hyq
    obtain ⟨e, he, ht, hf⟩ := remInDeg_pos_iff.mp hb
    refine ⟨e.«from», ?_, ⟨e, he, rfl, ht⟩⟩
    rw [List.mem_filter, decide_eq_true_eq]
    exact ⟨(hE e he).1, hf⟩
  have hx₀ : x ∈ ids.filter (fun z => decide (z ∉ D)) := by
    rw [List.mem_filter, decide_eq_true_eq]
    exact ⟨hx, hxD⟩
  obtain ⟨a, ha⟩ := exists_cycle_of_preds hx₀ hS
  exact hA a ha

theorem kahnLoop_coverage {edges : List GEdge} {ids : List Str} (hE : EdgesWithin edges ids)
    (hA : Acyclic edges) :
    ∀ (fuel : Nat) (queue : List Str) (indeg : Str → Int) (D : List Str),
      KahnInv edges ids D queue indeg → ids.length ≤ D.length + fuel →
      ∀ x ∈ ids, x ∈ D ++ kahnLoop (outgoingOf edges) fuel queue indeg := by
  have empty_case := kahn_empty_case hE hA
  intro fuel
  induction fuel with
  | zero =>
    intro queue indeg D inv hlen x hx
    have hDn : D.Nodup := (List.nodup_append.mp inv.nodup).1
    have hDs : ∀ y ∈ D, y ∈ ids := fun y hy => inv.memIds y (List.mem_append.mpr (Or.inl hy))
    have hxD := subset_of_card_ge hDn hDs (by omega) x hx
    rw [show kahnLoop (outgoingOf edges) 0 queue indeg = [] from rfl, List.append_nil]
    exact hxD
  | succ fuel ih =>
    intro queue indeg D inv hlen x hx
    match queue with
    | [] =>
      have hcov := empty_case [] indeg D inv (by simp) x hx
      rw [show kahnLoop (outgoingOf edges) (fuel + 1) [] indeg = [] from rfl, List.append_nil]
      exact hcov
    | s :: queue =>
      have hstep := kahnInv_step hE inv
      have hlen' : ids.length ≤ (D ++ [s]).length + fuel := by
        simp only [List.length_append, List.length_singleton]
        omega
      have hcov := ih _ _ (D ++ [s]) hstep hlen' x hx
      have hunf : kahnLoop (outgoingOf edges) (fuel + 1) (s :: queue) indeg =
          s :: kahnLoop (outgoingOf edges) fuel
            (queue ++ (processTargets (outgoingOf edges s) indeg).2)
            (processTargets (outgoingOf edges s) indeg).1 := rfl
      rw [hunf]
      rcases List.mem_append.mp hcov with h | h
      · rcases List.mem_append.mp h with h | h
        · exact List.mem_append.mpr (Or.inl h)
        · rcases List.mem_singleton.mp h with rfl
          exact List.mem_append.mpr (Or.inr (List.mem_cons_self _ _))
      · exact List.mem_append.mpr (Or.inr (List.mem_cons_of_mem _ h))

theorem kahnInv_init (edges : List GEdge) (ids : List Str) (hids : ids.Nodup) :
    KahnInv edges ids []
      (ids.filter fun id => decide (initialIndeg edges id = 0)) (initialIndeg edges) := by
  refine ⟨?_, ?_, ?_, ?_, ?_⟩
  · simpa using hids.filter _
  · intro x hx
    rw [List.nil_append] at hx
    exact (List.mem_filter.mp hx).1
  · intro x hx e he ht
    rw [List.nil_append] at hx
    have h0 := (List.mem_filter.mp hx).2
    rw [decide_eq_true_eq] at h0
    unfold initialIndeg at h0
    have h0' : indegOf edges x = 0 := by exact_mod_cast h0
    unfold indegOf at h0'
    rw [List.countP_eq_zero] at h0'
    have := h0' e he
    simp only [decide_eq_true_eq] at this
    exact absurd ht this
  · intro t
    rw [remInDeg_nil]
    rfl
  · intro x hxids hx
    rw [List.nil_append] at hx
    have hne : ¬ initialIndeg edges x = 0 := by
      intro h0
      exact hx (List.mem_filter.mpr ⟨hxids, by simp [h0]⟩)
    rw [remInDeg_nil]
    unfold initialIndeg at hne
    have hpos : indegOf edges x ≠ 0 := by
      intro h0
      apply hne
      exact_mod_cast h0
    omega

/-- Kahn's algorithm dequeues every node exactly when the graph is
acyclic (for graphs with distinct node ids whose edges stay inside the
node set). -/
theorem kahnVisited_iff {g : Graph} (hids : (nodeIds g).Nodup)
    (hE : EdgesWithin g.edges (nodeIds g)) :
    kahnVisited g = g.nodes.length ↔ Acyclic g.edges := by
  have hlen : (nodeIds g).length = g.nodes.length := List.length_map _ _
  have hinit := kahnInv_init g.edges (nodeIds g) hids
  obtain ⟨hN, hI, hT⟩ :=
    kahnLoop_topo hE (g.nodes.length + g.edges.length + 1) _ _ [] hinit
  rw [List.nil_append] at hN
  set L := kahnLoop (outgoingOf g.edges) (g.nodes.length + g.edges.length + 1)
    ((nodeIds g).filter fun id => decide (initialIndeg g.edges id = 0))
    (initialIndeg g.edges) with hLdef
  constructor
  · intro hv
    have hvlen : L.length = g.nodes.length := hv
    have hcover := subset_of_card_ge hN hI (by omega)
    have hbef : ∀ e ∈ g.edges, Before L e.«from» e.«to» := by
      intro e he
      have ht := hcover e.«to» (hE e he).2
      rcases hT e he ht with hf | hf
      · exact absurd hf (List.not_mem_nil _)
      · exact hf
    exact acyclic_of_before hbef
  · intro hA
    have hcov := kahnLoop_coverage hE hA (g.nodes.length + g.edges.length + 1) _ _ [] hinit
      (by omega)
    rw [List.nil_append] at hcov
    rw [← hLdef] at hcov
    have h1 := length_le_of_nodup_subset hN hI
    have h2 := length_le_of_nodup_subset hids hcov
    have hv : L.length = g.nodes.length := by omega
    exact hv

/-- The value-level node checks of the validator. -/
def NodeOk (n : GNode) : Prop :=
  n.id ≠ [] ∧ n.role ∈ validRoles ∧ jsTrim n.content ≠ []

theorem checkNodesAux_none_iff :
    ∀ (nodes : List GNode) (seen : List Str), seen.Nodup →
      (checkNodesAux nodes seen = none ↔
        (∀ n ∈ nodes, NodeOk n) ∧ (seen ++ nodes.map (·.id)).Nodup) := by
  intro nodes
  induction nodes with
  | nil =>
    intro seen hseen
    simp [checkNodesAux, hseen]
  | cons n rest ih =>
    intro seen hseen
    unfold checkNodesAux
    by_cases h1 : n.id = []
    · rw [if_pos h1]
      refine iff_of_false (by simp) ?_
      rintro ⟨hp, _⟩
      exact (hp n (List.mem_cons_self _ _)).1 h1
    rw [if_neg h1]
    by_cases h2 : n.id ∈ seen
    · rw [if_pos h2]
      refine iff_of_false (by simp) ?_
      rintro ⟨_, hnd⟩
      rw [List.nodup_append] at hnd
      exact hnd.2.2 h2 (by simp)
    rw [if_neg h2]
    by_cases h3 : n.role ∉ validRoles
    · rw [if_pos h3]
      refine iff_of_false (by simp) ?_
      rintro ⟨hp, _⟩
      exact h3 (hp n (List.mem_cons_self _ _)).2.1
    rw [if_neg h3]
    by_cases h4 : jsTrim n.content = []
    · rw [if_pos h4]
      refine iff_of_false (by simp) ?_
      rintro ⟨hp, _⟩
      exact (hp n (List.mem_cons_self _ _)).2.2 h4
    rw [if_neg h4]
    have hseen' : (seen ++ [n.id]).Nodup := by
      rw [List.nodup_append]
      exact ⟨hseen, List.nodup_singleton _, by simpa using h2⟩
    rw [ih (seen ++ [n.id]) hseen']
    have harr : (seen ++ [n.id]) ++ rest.map (·.id) = seen ++ n.id :: rest.map (·.id) := by
      rw [List.append_assoc]
      rfl
    rw [harr]
    constructor
    · rintro ⟨hp, hnd⟩
      refine ⟨?_, by simpa using hnd⟩
      intro m hm
      rcases List.mem_cons.mp hm with rfl | hm
      · exact ⟨h1, not_not.mp h3, h4⟩
      · exact hp m hm
    · rintro ⟨hp, hnd⟩
      exact ⟨fun m hm => hp m (List.mem_cons_of_mem _ hm), by simpa using hnd⟩

/-- The value-level edge checks of the validator. -/
def EdgeOk (ids : List Str) (e : GEdge) : Prop :=
  (e.«from» ≠ [] ∧ e.«to» ≠ []) ∧ (e.«from» ∈ ids ∧ e.«to» ∈ ids) ∧ e.«from» ≠ e.«to»

theorem checkEdgesAux_none_iff (ids : List Str) :
    ∀ edges : List GEdge, checkEdgesAux ids edges = none ↔ ∀ e ∈ edges, EdgeOk ids e := by
  intro edges
  induction edges with
  | nil => simp [checkEdgesAux]
  | cons e rest ih =>
    unfold checkEdgesAux
    by_cases h1 : e.«from» = [] ∨ e.«to» = []
    · rw [if_pos h1]
      refine iff_of_false (by simp) ?_
      intro hp
      have := (hp e (List.mem_cons_self _ _)).1
      rcases h1 with h | h
      · exact this.1 h
      · exact this.2 h
    rw [if_neg h1]
    by_cases h2 : e.«from» ∉ ids ∨ e.«to» ∉ ids
    · rw [if_pos h2]
      refine iff_of_false (by simp) ?_
      intro hp
      have := (hp e (List.mem_cons_self _ _)).2.1
      rcases h2 with h | h
      · exact h this.1
      · exact h this.2
    rw [if_neg h2]
    by_cases h3 : e.«from» = e.«to»
    · rw [if_pos h3]
      refine iff_of_false (by simp) ?_
      intro hp
      exact (hp e (List.mem_cons_self _ _)).2.2 h3
    rw [if_neg h3]
    rw [ih]
    push_neg at h1 h2
    constructor
    · intro hp m hm
      rcases List.mem_cons.mp hm with rfl | hm
      · exact ⟨h1, h2, h3⟩
      · exact hp m hm
    · intro hp m hm
      exact hp m (List.mem_cons_of_mem _ hm)

theorem degreeOf_ne_zero_iff {edges : List GEdge} {id : Str} :
    degreeOf edges id ≠ 0 ↔ ∃ e ∈ edges, e.«from» = id ∨ e.«to» = id := by
  unfold degreeOf
  constructor
  · intro h
    rcases Nat.eq_zero_or_pos (edges.countP fun e => decide (e.«from» = id)) with hf | hf
    · have ht : 0 < edges.countP fun e => decide (e.«to» = id) := by omega
      obtain ⟨e, he, hp⟩ := List.countP_pos_iff.mp ht
      rw [decide_eq_true_eq] at hp
      exact ⟨e, he, Or.inr hp⟩
    · obtain ⟨e, he, hp⟩ := List.countP_pos_iff.mp hf
      rw [decide_eq_true_eq] at hp
      exact ⟨e, he, Or.inl hp⟩
  · rintro ⟨e, he, hp | hp⟩
    · have : 0 < edges.countP fun e => decide (e.«from» = id) :=
        List.countP_pos_iff.mpr ⟨e, he, by simp [hp]⟩
      omega
    · have : 0 < edges.countP fun e => decide (e.«to» = id) :=
        List.countP_pos_iff.mpr ⟨e, he, by simp [hp]⟩
      omega

theorem findOrphan_none_iff {g : Graph} :
    findOrphan g = none ↔ ∀ n ∈ g.nodes, degreeOf g.edges n.id ≠ 0 := by
  unfold findOrphan
  rw [List.find?_eq_none]
  constructor
  · intro h n hn
    have := h n hn
    simpa using this
  · intro h n hn
    simpa using h n hn

/-- A single non-loop edge is acyclic. -/
theorem acyclic_single {e : GEdge} (h : e.«from» ≠ e.«to») : Acyclic [e] := by
  have hbef : ∀ e' ∈ [e], Before [e.«from», e.«to»] e'.«from» e'.«to» := by
    intro e' he'
    rw [List.mem_singleton] at he'
    subst he'
    refine ⟨by simp, by simp, ?_⟩
    rw [idxIn_cons_self, idxIn_cons_ne _ h, idxIn_cons_self]
    omega
  exact acyclic_of_before hbef

/-- C1 (amended).  For every candidate graph with more than one node, all
of whose nodes carry a non-empty id and a content that is non-blank after
trimming, `validateGeneratedGraph` returns `null` precisely when the graph
is acyclic, has no orphan node, has unique node ids, only roles in
{system, user, assistant}, and only edges between existing node ids.  (As
literally stated the claim is false: the validator additionally rejects
empty ids and blank contents — see the counterexample.) -/
theorem validate_none_iff_structural (g : Graph)
    (hn : 1 < g.nodes.length)
    (hid : ∀ n ∈ g.nodes, n.id ≠ [])
    (hc : ∀ n ∈ g.nodes, jsTrim n.content ≠ []) :
    validateGeneratedGraph g = none ↔
      (Acyclic g.edges ∧ NoOrphans g ∧ UniqueIds g ∧ ValidRolesP g ∧ EdgesRef g) := by
  have h0 : g.nodes ≠ [] := by
    intro h
    rw [h] at hn
    simp at hn
  constructor
  · intro hv
    unfold validateGeneratedGraph at hv
    rw [if_neg h0] at hv
    cases hcn : checkNodesAux g.nodes [] with
    | some e => simp [hcn] at hv
    | none =>
    simp only [hcn] at hv
    cases hce : checkEdgesAux (nodeIds g) g.edges with
    | some e => simp [hce] at hv
    | none =>
    simp only [hce, if_pos hn] at hv
    cases hfo : findOrphan g with
    | some n => simp [hfo] at hv
    | none =>
    simp only [hfo] at hv
    by_cases hk : kahnVisited g = g.nodes.length
    case neg => rw [if_neg hk] at hv; cases hv
    obtain ⟨hNok, hNd⟩ := (checkNodesAux_none_iff g.nodes [] List.nodup_nil).mp hcn
    rw [List.nil_append] at hNd
    have hEok := (checkEdgesAux_none_iff (nodeIds g) g.edges).mp hce
    have hOrph := findOrphan_none_iff.mp hfo
    have hUnique : UniqueIds g := hNd
    have hRoles : ValidRolesP g := fun n hn' => (hNok n hn').2.1
    have hRef : EdgesRef g := fun e he => (hEok e he).2.1
    have hA : Acyclic g.edges := (kahnVisited_iff hUnique hRef).mp hk
    have hNoOr : NoOrphans g := fun n hn' => degreeOf_ne_zero_iff.mp (hOrph n hn')
    exact ⟨hA, hNoOr, hUnique, hRoles, hRef⟩
  · rintro ⟨hA, hNoOr, hUnique, hRoles, hRef⟩
    have hcn : checkNodesAux g.nodes [] = none := by
      rw [checkNodesAux_none_iff g.nodes [] List.nodup_nil]
      refine ⟨fun n hn' => ⟨hid n hn', hRoles n hn', hc n hn'⟩, ?_⟩
      rw [List.nil_append]
      exact hUnique
    have hidmem : ∀ x ∈ nodeIds g, x ≠ [] := by
      intro x hx
      obtain ⟨n, hn', rfl⟩ := List.mem_map.mp hx
      exact hid n hn'
    have hce : checkEdgesAux (nodeIds g) g.edges = none := by
      rw [checkEdgesAux_none_iff]
      intro e he
      have hm := hRef e he
      refine ⟨⟨hidmem _ hm.1, hidmem _ hm.2⟩, hm, ?_⟩
      intro heq
      exact hA e.«from» (Relation.TransGen.single ⟨e, he, rfl, heq.symm⟩)
    have hfo : findOrphan g = none := by
      rw [findOrphan_none_iff]
      intro n hn'
      exact degreeOf_ne_zero_iff.mpr (hNoOr n hn')
    have hk : kahnVisited g = g.nodes.length := (kahnVisited_iff hUnique hRef).mpr hA
    unfold validateGeneratedGraph
    rw [if_neg h0]
    simp [hcn, hce, hn, hfo, hk]

/-- The graph refuting claim C1 as literally stated: structurally perfect
(acyclic, no orphans, unique ids, valid roles, referenced edges) but with
an empty `content` on node `a`, which the validator also rejects. -/
def c1CexGraph : Graph :=
  ⟨[⟨"a".data, "user".data, "A".data, "".data⟩,
    ⟨"b".data, "user".data, "B".data, "x".data⟩],
   [⟨"a".data, "b".data⟩]⟩

/-- C1, counterexample to the claim as stated: `c1CexGraph` has more than
one node and satisfies all five structural predicates, yet the validator
rejects it (node `a` has empty content), so acceptance is not equivalent
to the conjunction of exactly those five predicates. -/
theorem validate_claim_counterexample :
    1 < c1CexGraph.nodes.length ∧
    (Acyclic c1CexGraph.edges ∧ NoOrphans c1CexGraph ∧ UniqueIds c1CexGraph ∧
      ValidRolesP c1CexGraph ∧ EdgesRef c1CexGraph) ∧
    validateGeneratedGraph c1CexGraph ≠ none := by
  refine ⟨by decide, ⟨?_, by unfold NoOrphans; decide, by unfold UniqueIds nodeIds; decide,
    by unfold ValidRolesP validRoles; decide, by unfold EdgesRef nodeIds; decide⟩, by decide⟩
  exact acyclic_single (by decide)

/-- A well-formed two-node graph instantiating the C1 theorem. -/
def c1WitGraph : Graph :=
  ⟨[⟨"a".data, "user".data, "A".data, "x".data⟩,
    ⟨"b".data, "system".data, "B".data, "y".data⟩],
   [⟨"a".data, "b".data⟩]⟩

/-- C1, witness: the amended theorem applied to a concrete graph. -/
theorem validate_none_iff_structural_witness :
    (1 < c1WitGraph.nodes.length ∧ (∀ n ∈ c1WitGraph.nodes, n.id ≠ []) ∧
      (∀ n ∈ c1WitGraph.nodes, jsTrim n.content ≠ [])) ∧
    (validateGeneratedGraph c1WitGraph = none ↔
      (Acyclic c1WitGraph.edges ∧ NoOrphans c1WitGraph ∧ UniqueIds c1WitGraph ∧
        ValidRolesP c1WitGraph ∧ EdgesRef c1WitGraph)) :=
  ⟨⟨by decide, by decide, by decide⟩,
    validate_none_iff_structural c1WitGraph (by decide) (by decide) (by decide)⟩

/-! ### Canvas nodes, `updateNodeList`, `layoutGraph` -/

/-- The `data` payload of a canvas (React-Flow) node. -/
structure NodeData where
  role : Str
  label : Str
  content : Str
  listItems : List ListItem
deriving DecidableEq, Repr

/-- A canvas node.  Canvas coordinates are JavaScript numbers; the layout
code only ever writes the integer grid values modelled here, and only
compares coordinates, so integers model every position this development
evaluates. -/
structure RFNode where
  id : Str
  type : Str
  position : Int × Int
  data : NodeData
deriving DecidableEq, Repr

/-- A canvas edge as produced by `layoutGraph` (the constant `markerEnd`
presentation object is omitted). -/
structure RFEdge where
  id : Str
  source : Str
  target : Str
  type : Str
deriving DecidableEq, Repr

/-- Insert `a` into an ascending (per `le`) list, before the first element
it compares `le` to — the stable position. -/
def insertLe {α : Type} (le : α → α → Bool) (a : α) : List α → List α
  | [] => [a]
  | b :: l => if le a b then a :: b :: l else b :: insertLe le a l

/-- Stable sort by a boolean comparison; JavaScript's `Array.prototype.sort`
is stable, and a stable insertion sort yields the same ordering. -/
def sortLe {α : Type} (le : α → α → Bool) : List α → List α
  | [] => []
  | a :: l => insertLe le a (sortLe le l)

/-- First-occurrence deduplication (the key order of a JavaScript `Map`
built by grouping). -/
def distinctLevels (ls : List Int) : List Int :=
  ls.foldl (fun acc l => if l ∈ acc then acc else acc ++ [l]) []

/-- `updateNodeList` from the source: normalize the incoming items, then
(`updateNodeData`) merge `{listItems: safeItems, content:
formatNumberedList(safeItems)}` into the data of the matching node. -/
def updateNodeList (nodeId : Str) (listItems : List RawItem) (nodes : List RFNode) :
    List RFNode :=
  let safeItems := normalizeListItems listItems []
  nodes.map fun node =>
    if node.id = nodeId then
      { node with data := { node.data with
          listItems := safeItems
          content := formatNumberedList (safeItems.map ListItem.raw) } }
    else node

/-- The inner edge loop of `layoutGraph`'s leveling pass: for each target
of `current`, raise the target's level to `level(current) + 1` when that
is larger (or unset), decrement its in-degree, and enqueue it when the
count reaches zero.  `nextLevel` re-reads `level(current)` at every
target, as the source does. -/
def layoutProcessTargets (current : Str) :
    List Str → (Str → Int) → (Str → Option Int) →
      ((Str → Int) × (Str → Option Int) × List Str)
  | [], indeg, level => (indeg, level, [])
  | t :: ts, indeg, level =>
    let nextLevel := (level current).getD 0 + 1
    let level' := match level t with
      | none => Function.update level t (some nextLevel)
      | some v => if nextLevel > v then Function.update level t (some nextLevel) else level
    let v := indeg t - 1
    let p := layoutProcessTargets current ts (Function.update indeg t v) level'
    if v = 0 then (p.1, p.2.1, t :: p.2.2) else p

/-- The queue loop of `layoutGraph`'s leveling pass; fuel as in
`kahnLoop`. -/
def layoutLevelLoop (out : Str → List Str) :
    Nat → List Str → (Str → Int) → (Str → Option Int) → (Str → Option Int)
  | 0, _, _, level => level
  | _ + 1, [], _, level => level
  | fuel + 1, current :: queue, indeg, level =>
    let p := layoutProcessTargets current (out current) indeg level
    layoutLevelLoop out fuel (queue ++ p.2.2) p.1 p.2.1

/-- The result shape of `layoutGraph`. -/
structure LayoutResult where
  rfNodes : List RFNode
  rfEdges : List RFEdge
deriving DecidableEq, Repr

/-- `layoutGraph` from the source: level the (already validated) graph by
longest path from the sources, group nodes by level (levels ascending,
lanes in node order), place them on the `(120 + lane·320, 100 + level·220)`
grid, and re-derive each node's `listItems` from its imported `content`.
It is only ever called on graphs the validator accepted, so node ids are
unique and edges reference existing nodes. -/
def layoutGraph (g : Graph) : LayoutResult :=
  let queue₀ := (nodeIds g).filter fun id => decide (initialIndeg g.edges id = 0)
  let level₀ : Str → Option Int := fun id =>
    if id ∈ nodeIds g ∧ initialIndeg g.edges id = 0 then some 0 else none
  let level := layoutLevelLoop (outgoingOf g.edges) (g.nodes.length + g.edges.length + 1)
    queue₀ (initialIndeg g.edges) level₀
  let lvlOf : Str → Int := fun id => (level id).getD 0
  let lvls := sortLe (fun a b => decide (a ≤ b)) (distinctLevels (g.nodes.map fun n => lvlOf n.id))
  let rfNodes := lvls.flatMap fun l =>
    (g.nodes.filter fun n => decide (lvlOf n.id = l)).mapIdx fun lane n =>
      { id := n.id
        type := "promptNode".data
        position := (120 + (lane : Int) * 320, 100 + l * 220)
        data := { role := n.role, label := n.label, content := n.content,
                  listItems := normalizeListItems [] n.content } }
  let rfEdges := g.edges.mapIdx fun idx e =>
    { id := "e-".data ++ e.«from» ++ "-".data ++ e.«to» ++ "-".data ++ natToStr idx
      source := e.«from»
      target := e.«to»
      type := "smoothstep".data }
  ⟨rfNodes, rfEdges⟩

/-- C10: in `formatNumberedList` an item whose trimmed text is empty still
bumps the per-level counters before being dropped, so later numbering
skips it: level-1 items "a", "", "b" render as `"1 a\n3 b"`, not
`"1 a\n2 b"`. -/
theorem format_skips_counter_of_empty_item :
    formatNumberedList
        [ListItem.raw ⟨"i1".data, "a".data, 1⟩, ListItem.raw ⟨"i2".data, "".data, 1⟩,
          ListItem.raw ⟨"i3".data, "b".data, 1⟩] = "1 a\n3 b".data ∧
      formatNumberedList
        [ListItem.raw ⟨"i1".data, "a".data, 1⟩, ListItem.raw ⟨"i2".data, "".data, 1⟩,
          ListItem.raw ⟨"i3".data, "b".data, 1⟩] ≠ "1 a\n2 b".data := by
  decide

/-- C2 (amended): every node updated by `updateNodeList` satisfies the
invariant `content = formatNumberedList(listItems)`.  (As stated over all
system-produced nodes the claim is false: `layoutGraph` keeps the imported
content verbatim while re-deriving `listItems` from it — see the
counterexample.) -/
theorem updateNodeList_content_invariant (nodeId : Str) (items : List RawItem)
    (nodes : List RFNode) :
    ∀ node ∈ updateNodeList nodeId items nodes, node.id = nodeId →
      node.data.content = formatNumberedList (node.data.listItems.map ListItem.raw) := by
  intro node hmem hid
  unfold updateNodeList at hmem
  obtain ⟨orig, horig, heq⟩ := List.mem_map.mp hmem
  by_cases h : orig.id = nodeId
  · rw [if_pos h] at heq
    rw [← heq]
  · rw [if_neg h] at heq
    rw [← heq] at hid
    exact absurd hid h

/-- The single-node graph refuting the C2 claim as stated: `layoutGraph`
keeps content `"No content"` while deriving `listItems` that render as
`"1 No content"`. -/
def c2CexGraph : Graph :=
  ⟨[⟨"a".data, "user".data, "A".data, "No content".data⟩], []⟩

/-- C2, counterexample to the claim as stated: a node produced by
`layoutGraph` whose `content` differs from
`formatNumberedList(listItems)`. -/
theorem layoutGraph_content_invariant_counterexample :
    ¬ ∀ node ∈ (layoutGraph c2CexGraph).rfNodes,
        node.data.content = formatNumberedList (node.data.listItems.map ListItem.raw) := by
  decide

/-- A concrete canvas node for the C2 witness. -/
def c2WitNode : RFNode :=
  ⟨"n1".data, "promptNode".data, (0, 0), ⟨"user".data, "User".data, "".data, []⟩⟩

/-- The node resulting from the concrete update in the C2 witness. -/
def c2WitUpdated : RFNode :=
  (updateNodeList "n1".data [RawItem.str "hello".data] [c2WitNode]).headD c2WitNode

/-- C2, witness: the amended theorem applied to a concrete update. -/
theorem updateNodeList_content_invariant_witness :
    c2WitUpdated ∈ updateNodeList "n1".data [RawItem.str "hello".data] [c2WitNode] ∧
      c2WitUpdated.data.content =
        formatNumberedList (c2WitUpdated.data.listItems.map ListItem.raw) :=
  ⟨by decide,
    updateNodeList_content_invariant "n1".data [RawItem.str "hello".data] [c2WitNode]
      c2WitUpdated (by decide) (by decide)⟩

/-! ### Round-tripping the numbered-list rendering (claim C3) -/

theorem digitChar_props {k : Nat} (hk : k < 10) :
    (digitChar k).isDigit = true ∧ jsIsWs (digitChar k) = false ∧
      isLineTerm (digitChar k) = false ∧ digitChar k ≠ '\n' ∧ digitChar k ≠ '.' := by
  interval_cases k <;> exact ⟨by decide, by decide, by decide, by decide, by decide⟩

theorem natToStrAux_mem :
    ∀ (fuel n : Nat) (c : Char), c ∈ natToStrAux fuel n → ∃ k, k < 10 ∧ c = digitChar k := by
  intro fuel
  induction fuel with
  | zero => intro n c hc; cases hc
  | succ fuel ih =>
    intro n c hc
    unfold natToStrAux at hc
    by_cases h : n < 10
    · rw [if_pos h] at hc
      rcases List.mem_singleton.mp hc with rfl
      exact ⟨n, h, rfl⟩
    · rw [if_neg h] at hc
      rcases List.mem_append.mp hc with hc | hc
      · exact ih _ _ hc
      · rcases List.mem_singleton.mp hc with rfl
        exact ⟨n % 10, Nat.mod_lt _ (by omega), rfl⟩

theorem natToStr_mem {n : Nat} {c : Char} (hc : c ∈ natToStr n) :
    ∃ k, k < 10 ∧ c = digitChar k :=
  natToStrAux_mem _ _ _ hc

theorem natToStrAux_ne_nil (fuel n : Nat) : natToStrAux (fuel + 1) n ≠ [] := by
  unfold natToStrAux
  by_cases h : n < 10
  · rw [if_pos h]; simp
  · rw [if_neg h]; simp

theorem natToStr_ne_nil (n : Nat) : natToStr n ≠ [] := natToStrAux_ne_nil n n

theorem joinSep_mem {sep : Str} :
    ∀ (parts : List Str) (c : Char), c ∈ joinSep sep parts →
      c ∈ sep ∨ ∃ p ∈ parts, c ∈ p := by
  intro parts
  induction parts with
  | nil => intro c hc; cases hc
  | cons l rest ih =>
    intro c hc
    match rest with
    | [] =>
      exact Or.inr ⟨l, List.mem_singleton.mpr rfl, hc⟩
    | l' :: ls =>
      rw [show joinSep sep (l :: l' :: ls) = l ++ sep ++ joinSep sep (l' :: ls) from rfl] at hc
      rcases List.mem_append.mp hc with hc | hc
      · rcases List.mem_append.mp hc with hc | hc
        · exact Or.inr ⟨l, List.mem_cons_self _ _, hc⟩
        · exact Or.inl hc
      · rcases ih c hc with hc | ⟨p, hp, hcp⟩
        · exact Or.inl hc
        · exact Or.inr ⟨p, List.mem_cons_of_mem _ hp, hcp⟩

theorem takeWhile_append_cons {p : Char → Bool} :
    ∀ {xs : Str} {y : Char} {rest : Str}, (∀ x ∈ xs, p x = true) → p y = false →
      (xs ++ y :: rest).takeWhile p = xs ∧ (xs ++ y :: rest).dropWhile p = y :: rest := by
  intro xs
  induction xs with
  | nil =>
    intro y rest _ hy
    simp [List.takeWhile, List.dropWhile, hy]
  | cons x xs ih =>
    intro y rest hx hy
    have hpx : p x = true := hx x (List.mem_cons_self _ _)
    have hrec := @ih y rest (fun z hz => hx z (List.mem_cons_of_mem _ hz)) hy
    simp [List.takeWhile, List.dropWhile, hpx, hrec.1, hrec.2]

theorem takeWhile_all {p : Char → Bool} :
    ∀ {xs : Str}, (∀ x ∈ xs, p x = true) →
      xs.takeWhile p = xs ∧ xs.dropWhile p = [] := by
  intro xs
  induction xs with
  | nil => intro _; simp
  | cons x xs ih =>
    intro hx
    have hpx : p x = true := hx x (List.mem_cons_self _ _)
    have := ih fun z hz => hx z (List.mem_cons_of_mem _ hz)
    simp [List.takeWhile, List.dropWhile, hpx, this.1, this.2]

theorem dropWhile_head_not {p : Char → Bool} :
    ∀ {l : Str} {c : Char} {cs : Str}, l.dropWhile p = c :: cs → p c = false := by
  intro l
  induction l with
  | nil => intro c cs h; cases h
  | cons x xs ih =>
    intro c cs h
    rw [List.dropWhile_cons] at h
    by_cases hx : p x = true
    · rw [if_pos hx] at h
      exact ih h
    · rw [if_neg hx] at h
      cases h
      exact Bool.eq_false_iff.mpr hx

theorem dropWhile_of_head_false {p : Char → Bool} {l : Str}
    (h : ∀ c cs, l = c :: cs → p c = false) : l.dropWhile p = l := by
  match l with
  | [] => rfl
  | c :: cs =>
    rw [List.dropWhile_cons, if_neg]
    rw [h c cs rfl]
    simp

theorem jsTrim_eq_self {s : Str} (hh : ∀ c cs, s = c :: cs → jsIsWs c = false)
    (hl : ∀ c cs, s.reverse = c :: cs → jsIsWs c = false) : jsTrim s = s := by
  unfold jsTrim
  rw [dropWhile_of_head_false hh, dropWhile_of_head_false hl, List.reverse_reverse]

theorem jsTrim_revhead_not {t : Str} :
    ∀ c cs, (jsTrim t).reverse = c :: cs → jsIsWs c = false := by
  intro c cs h
  unfold jsTrim at h
  rw [List.reverse_reverse] at h
  exact dropWhile_head_not h

theorem jsTrim_head_not {t : Str} :
    ∀ c cs, jsTrim t = c :: cs → jsIsWs c = false := by
  intro c cs h
  unfold jsTrim at h
  have hsuf : ((t.dropWhile jsIsWs).reverse.dropWhile jsIsWs) <:+
      (t.dropWhile jsIsWs).reverse := List.dropWhile_suffix _
  have hpre : ((t.dropWhile jsIsWs).reverse.dropWhile jsIsWs).reverse <+:
      t.dropWhile jsIsWs := by
    have := List.reverse_prefix.mpr hsuf
    rwa [List.reverse_reverse] at this
  rw [h] at hpre
  obtain ⟨rest, hrest⟩ := hpre
  have : t.dropWhile jsIsWs = c :: (cs ++ rest) := by
    rw [← hrest]
    rfl
  exact dropWhile_head_not this

theorem jsTrim_idem (t : Str) : jsTrim (jsTrim t) = jsTrim t :=
  jsTrim_eq_self (fun _ _ h => jsTrim_head_not _ _ h) (fun _ _ h => jsTrim_revhead_not _ _ h)

theorem jsTrim_mem {t : Str} {c : Char} (hc : c ∈ jsTrim t) : c ∈ t := by
  unfold jsTrim at hc
  rw [List.mem_reverse] at hc
  have h1 := (List.dropWhile_sublist _).mem hc
  rw [List.mem_reverse] at h1
  exact (List.dropWhile_sublist _).mem h1

theorem splitNl_cons (c : Char) (rest : Str) :
    splitNl (c :: rest) =
      if c = '\n' then [] :: splitNl rest
      else (c :: (splitNl rest).headD []) :: (splitNl rest).tail := rfl

theorem splitNl_no_nl : ∀ {s : Str}, '\n' ∉ s → splitNl s = [s] := by
  intro s
  induction s with
  | nil => intro _; rfl
  | cons c rest ih =>
    intro h
    have hc : c ≠ '\n' := fun hc => h (hc ▸ List.mem_cons_self _ _)
    have hrest : '\n' ∉ rest := fun hr => h (List.mem_cons_of_mem _ hr)
    rw [splitNl_cons, if_neg hc, ih hrest]
    rfl

theorem splitNl_append_nl : ∀ {l : Str} {rest : Str}, '\n' ∉ l →
    splitNl (l ++ '\n' :: rest) = l :: splitNl rest := by
  intro l
  induction l with
  | nil =>
    intro rest _
    show splitNl ('\n' :: rest) = [] :: splitNl rest
    rw [splitNl_cons, if_pos rfl]
  | cons c cl ih =>
    intro rest h
    have hc : c ≠ '\n' := fun hc => h (hc ▸ List.mem_cons_self _ _)
    have hcl : '\n' ∉ cl := fun hr => h (List.mem_cons_of_mem _ hr)
    have hrec := @ih rest hcl
    show splitNl (c :: (cl ++ '\n' :: rest)) = (c :: cl) :: splitNl rest
    rw [splitNl_cons, if_neg hc, hrec]
    rfl

theorem splitNl_joinNl : ∀ {ls : List Str}, ls ≠ [] → (∀ l ∈ ls, '\n' ∉ l) →
    splitNl (joinNl ls) = ls := by
  intro ls
  induction ls with
  | nil => intro h _; exact absurd rfl h
  | cons l rest ih =>
    intro _ hnl
    match rest with
    | [] => exact splitNl_no_nl (hnl l (List.mem_cons_self _ _))
    | l' :: ls' =>
      rw [show joinNl (l :: l' :: ls') = l ++ '\n' :: joinNl (l' :: ls') from rfl]
      rw [splitNl_append_nl (hnl l (List.mem_cons_self _ _))]
      rw [ih (by simp) fun m hm => hnl m (List.mem_cons_of_mem _ hm)]

/-- The shape `".s₁.s₂…sₙ" ++ tail` consumed by the dot-group matcher. -/
def dotted : List Str → Str → Str
  | [], tail => tail
  | s :: ss, tail => '.' :: (s ++ dotted ss tail)

theorem joinSep_dotted : ∀ (ss : List Str) (s : Str) (tail : Str),
    joinSep ['.'] (s :: ss) ++ tail = s ++ dotted ss tail := by
  intro ss
  induction ss with
  | nil => intro s tail; rfl
  | cons s' ss' ih =>
    intro s tail
    show (s ++ ['.'] ++ joinSep ['.'] (s' :: ss')) ++ tail = s ++ '.' :: (s' ++ dotted ss' tail)
    rw [List.append_assoc, List.append_assoc, ih s' tail]
    rfl

theorem spanDigits_eq {xs rest : Str} (hx : ∀ x ∈ xs, x.isDigit = true)
    (hrest : ∀ c cs, rest = c :: cs → c.isDigit = false) :
    spanDigits (xs ++ rest) = (xs, rest) := by
  unfold spanDigits
  match rest with
  | [] =>
    rw [List.append_nil]
    have h1 := takeWhile_all hx
    rw [h1.1, h1.2]
  | c :: cs =>
    have h1 := @takeWhile_append_cons Char.isDigit xs c cs hx (hrest c cs rfl)
    rw [h1.1, h1.2]

theorem takeDotGroupsAux_zero (s : Str) : takeDotGroupsAux 0 s = ([], s) := rfl

theorem takeDotGroupsAux_dot (fuel : Nat) (rest : Str) :
    takeDotGroupsAux (fuel + 1) ('.' :: rest) =
      (if (spanDigits rest).1 = [] then ([], '.' :: rest)
       else ((spanDigits rest).1 :: (takeDotGroupsAux fuel (spanDigits rest).2).1,
         (takeDotGroupsAux fuel (spanDigits rest).2).2)) := rfl

theorem takeDotGroupsAux_nodot {c : Char} (hc : c ≠ '.') (fuel : Nat) (rest : Str) :
    takeDotGroupsAux (fuel + 1) (c :: rest) = ([], c :: rest) := by
  unfold takeDotGroupsAux
  split
  · rename_i heq
    cases heq
    exact absurd rfl hc
  · rfl

theorem takeDotGroupsAux_nil (fuel : Nat) : takeDotGroupsAux (fuel + 1) [] = ([], []) := rfl

/-- Head of a `dotted`-shape is never a digit and (when the group list is
empty) inherits the tail's head. -/
theorem dotted_head_not_digit {segs : List Str} {tail : Str}
    (htail : ∀ c cs, tail = c :: cs → c.isDigit = false) :
    ∀ c cs, dotted segs tail = c :: cs → c.isDigit = false := by
  intro c cs h
  match segs with
  | [] => exact htail c cs h
  | s :: ss =>
    rw [show dotted (s :: ss) tail = '.' :: (s ++ dotted ss tail) from rfl] at h
    cases h
    decide

theorem takeDotGroups_dotted :
    ∀ (segs : List Str) (tail : Str),
      (∀ s ∈ segs, s ≠ [] ∧ ∀ c ∈ s, c.isDigit = true) →
      (∀ c cs, tail = c :: cs → c.isDigit = false ∧ c ≠ '.') →
      ∀ fuel, (dotted segs tail).length ≤ fuel →
        takeDotGroupsAux fuel (dotted segs tail) = (segs, tail) := by
  intro segs
  induction segs with
  | nil =>
    intro tail _ htail fuel _
    show takeDotGroupsAux fuel tail = ([], tail)
    match fuel with
    | 0 => rfl
    | fuel + 1 =>
      match tail with
      | [] => rfl
      | c :: cs => exact takeDotGroupsAux_nodot (htail c cs rfl).2 fuel cs
  | cons s ss ih =>
    intro tail hdig htail fuel hfuel
    have hs := hdig s (List.mem_cons_self _ _)
    have hshape : dotted (s :: ss) tail = '.' :: (s ++ dotted ss tail) := rfl
    rw [hshape] at hfuel ⊢
    match fuel with
    | 0 => simp at hfuel
    | fuel + 1 =>
      rw [takeDotGroupsAux_dot]
      have hspan : spanDigits (s ++ dotted ss tail) = (s, dotted ss tail) :=
        spanDigits_eq hs.2 (dotted_head_not_digit fun c cs h => (htail c cs h).1)
      have hspan1 : (spanDigits (s ++ dotted ss tail)).1 = s := by rw [hspan]
      have hspan2 : (spanDigits (s ++ dotted ss tail)).2 = dotted ss tail := by rw [hspan]
      have hrec := ih tail (fun m hm => hdig m (List.mem_cons_of_mem _ hm)) htail fuel
        (by
          rw [List.length_cons, List.length_append] at hfuel
          omega)
      rw [hspan1, hspan2, if_neg hs.1, hrec]

theorem matchTail_space {ttext : Str} (h1 : ttext ≠ [])
    (h2 : ttext.any isLineTerm = false)
    (h3 : ∀ c cs, ttext = c :: cs → jsIsWs c = false) :
    matchTail (' ' :: ttext) = some ttext := by
  unfold matchTail
  have htw : (' ' :: ttext).takeWhile jsIsWs = ' ' :: ttext.takeWhile jsIsWs := by
    rw [List.takeWhile_cons, if_pos (by decide)]
  have httw : ttext.takeWhile jsIsWs = [] := by
    match ttext with
    | [] => rfl
    | c :: cs =>
      rw [List.takeWhile_cons, if_neg]
      rw [h3 c cs rfl]
      simp
  have hdw : (' ' :: ttext).dropWhile jsIsWs = ttext := by
    rw [List.dropWhile_cons, if_pos (by decide), dropWhile_of_head_false h3]
  rw [htw, httw, hdw]
  rw [if_neg (by simp)]
  rw [if_pos h1]  -- the `t ≠ []` test
  rw [if_neg (by rw [h2]; simp)]

theorem matchNumbered_token (segs : List Str) (ttext : Str)
    (hsegs : segs ≠ [])
    (hdig : ∀ s ∈ segs, s ≠ [] ∧ ∀ c ∈ s, c.isDigit = true)
    (h1 : ttext ≠ []) (h2 : ttext.any isLineTerm = false)
    (h3 : ∀ c cs, ttext = c :: cs → jsIsWs c = false) :
    matchNumbered ['.'] (joinSep ['.'] segs ++ ' ' :: ttext) = some (segs, ttext) := by
  match segs, hsegs with
  | s₀ :: rest, _ =>
    rw [joinSep_dotted rest s₀ (' ' :: ttext)]
    have hs₀ := hdig s₀ (List.mem_cons_self _ _)
    have hspan : spanDigits (s₀ ++ dotted rest (' ' :: ttext)) =
        (s₀, dotted rest (' ' :: ttext)) := by
      apply spanDigits_eq hs₀.2
      apply dotted_head_not_digit
      intro c cs hceq
      cases hceq
      decide
    have htdg : takeDotGroupsAux (dotted rest (' ' :: ttext)).length
        (dotted rest (' ' :: ttext)) = (rest, ' ' :: ttext) := by
      apply takeDotGroups_dotted rest (' ' :: ttext)
        (fun m hm => hdig m (List.mem_cons_of_mem _ hm))
        (fun c cs hceq => by cases hceq; exact ⟨by decide, by decide⟩)
        _ (le_refl _)
    have hspan1 : (spanDigits (s₀ ++ dotted rest (' ' :: ttext))).1 = s₀ := by rw [hspan]
    have hspan2 : (spanDigits (s₀ ++ dotted rest (' ' :: ttext))).2 =
        dotted rest (' ' :: ttext) := by rw [hspan]
    have htdg1 : (takeDotGroupsAux (dotted rest (' ' :: ttext)).length
        (dotted rest (' ' :: ttext))).1 = rest := by rw [htdg]
    have htdg2 : (takeDotGroupsAux (dotted rest (' ' :: ttext)).length
        (dotted rest (' ' :: ttext))).2 = ' ' :: ttext := by rw [htdg]
    simp only [matchNumbered, hspan1, hspan2, htdg1, htdg2, if_neg hs₀.1,
      matchTail_space h1 h2 h3]
    rw [if_neg (by decide)]

theorem clampLevel_range (v : Int) : 1 ≤ clampLevel v ∧ clampLevel v ≤ 3 := by
  unfold clampLevel
  constructor
  · exact le_max_left _ _
  · exact max_le (by norm_num) (min_le_left _ _)

theorem clampLevel_of_range {v : Int} (h1 : 1 ≤ v) (h2 : v ≤ 3) : clampLevel v = v := by
  unfold clampLevel
  rw [if_neg (by omega), min_eq_right h2, max_eq_right h1]

theorem clampLevel_idem (v : Int) : clampLevel (clampLevel v) = clampLevel v :=
  clampLevel_of_range (clampLevel_range v).1 (clampLevel_range v).2

theorem bumpCounters_length (counters : List Nat) (level : Nat) :
    (bumpCounters counters level).length = counters.length := by
  unfold bumpCounters
  rw [List.length_mapIdx, List.length_set]

theorem formatLines_length : ∀ (xs : List ListItem) (counters : List Nat),
    (formatLines counters xs).length = xs.length := by
  intro xs
  induction xs with
  | nil => intro counters; rfl
  | cons item rest ih =>
    intro counters
    simp only [formatLines, List.length_cons, ih]

theorem normalizeLine_id (l : Str) : (normalizeLine l).id = "li-fresh".data := by
  unfold normalizeLine
  cases matchNumbered ['.'] l with
  | none => rfl
  | some p => cases p; rfl

theorem normalizeLine_level (l : Str) :
    clampLevel (normalizeLine l).level = (normalizeLine l).level := by
  unfold normalizeLine
  cases matchNumbered ['.'] l with
  | none => exact clampLevel_idem _
  | some p => cases p; exact clampLevel_idem _

theorem normalize_map_raw_eq (its : List ListItem) (hne : its ≠ []) :
    normalizeListItems (its.map ListItem.raw) [] =
      its.map fun it =>
        ⟨if it.id ≠ [] then it.id else (createListItem [] 1).id,
          it.text, clampLevel it.level⟩ := by
  unfold normalizeListItems
  rw [if_pos (by simp [hne])]
  rw [List.map_map]
  apply List.map_congr_left
  intro it _
  rfl

theorem normalize_map_raw_id {its : List ListItem} (hne : its ≠ [])
    (hid : ∀ it ∈ its, it.id ≠ [])
    (hlv : ∀ it ∈ its, clampLevel it.level = it.level) :
    normalizeListItems (its.map ListItem.raw) [] = its := by
  rw [normalize_map_raw_eq its hne]
  have hcongr : ∀ it ∈ its,
      (⟨if it.id ≠ [] then it.id else (createListItem [] 1).id,
        it.text, clampLevel it.level⟩ : ListItem) = it := by
    intro it hit
    rw [if_pos (hid it hit), hlv it hit]
  rw [List.map_congr_left hcongr]
  simp

theorem formatLines_cons (counters : List Nat) (item : ListItem) (rest : List ListItem) :
    formatLines counters (item :: rest) =
      (if jsTrim item.text = [] then []
       else joinSep ['.'] (((bumpCounters counters (max 1 (min 3 item.level)).toNat).take
           (max 1 (min 3 item.level)).toNat).map natToStr) ++ ' ' :: jsTrim item.text) ::
        formatLines (bumpCounters counters (max 1 (min 3 item.level)).toNat) rest := rfl

theorem rendered_line_props {counters' : List Nat} {lvl : Nat} {ttext : Str}
    (hC : counters'.length = 3) (hlo : 1 ≤ lvl) (hhi : lvl ≤ 3)
    (ht : ttext ≠ []) (hlt : ∀ c ∈ ttext, isLineTerm c = false)
    (hth : ∀ c cs, ttext = c :: cs → jsIsWs c = false)
    (htr : ∀ c cs, ttext.reverse = c :: cs → jsIsWs c = false) :
    (joinSep ['.'] ((counters'.take lvl).map natToStr) ++ ' ' :: ttext ≠ [] ∧
      '\n' ∉ joinSep ['.'] ((counters'.take lvl).map natToStr) ++ ' ' :: ttext ∧
      jsTrim (joinSep ['.'] ((counters'.take lvl).map natToStr) ++ ' ' :: ttext) =
        joinSep ['.'] ((counters'.take lvl).map natToStr) ++ ' ' :: ttext) ∧
    matchNumbered ['.'] (joinSep ['.'] ((counters'.take lvl).map natToStr) ++ ' ' :: ttext) =
      some ((counters'.take lvl).map natToStr, ttext) ∧
    ((counters'.take lvl).map natToStr).length = lvl := by
  have hlen_take : (counters'.take lvl).length = lvl := by
    rw [List.length_take]
    omega
  have hsegs_ne : (counters'.take lvl).map natToStr ≠ [] := by
    intro h
    have hlen := congrArg List.length h
    rw [List.length_map, hlen_take] at hlen
    simp at hlen
    omega
  have hsegs_dig : ∀ s ∈ (counters'.take lvl).map natToStr,
      s ≠ [] ∧ ∀ c ∈ s, c.isDigit = true := by
    intro s hs
    obtain ⟨k, _, rfl⟩ := List.mem_map.mp hs
    refine ⟨natToStr_ne_nil k, ?_⟩
    intro c hc
    obtain ⟨d, hd, rfl⟩ := natToStr_mem hc
    exact (digitChar_props hd).1
  have hany : ttext.any isLineTerm = false := by
    rw [List.any_eq_false]
    intro c hc
    rw [hlt c hc]
    simp
  have hmatch := matchNumbered_token _ ttext hsegs_ne hsegs_dig ht hany hth
  refine ⟨⟨by simp, ?_, ?_⟩, hmatch, by rw [List.length_map, hlen_take]⟩
  · -- no newline in the rendered line
    intro hmem
    rcases List.mem_append.mp hmem with hmem | hmem
    · rcases joinSep_mem _ _ hmem with hmem | ⟨s, hs, hcs⟩
      · rcases List.mem_singleton.mp hmem with h
        cases h
      · obtain ⟨k, _, rfl⟩ := List.mem_map.mp hs
        obtain ⟨d, hd, heq⟩ := natToStr_mem hcs
        exact (digitChar_props hd).2.2.2.1 heq.symm
    · rcases List.mem_cons.mp hmem with h | h
      · cases h
      · have := hlt _ h
        simp [isLineTerm] at this
  · -- the rendered line is its own trim
    obtain ⟨s₀, segs', hsegs⟩ := List.exists_cons_of_ne_nil hsegs_ne
    have hs₀ := hsegs_dig s₀ (hsegs ▸ List.mem_cons_self _ _)
    obtain ⟨d, ds, hd⟩ := List.exists_cons_of_ne_nil hs₀.1
    apply jsTrim_eq_self
    · intro c cs hline
      rw [hsegs, joinSep_dotted, hd, List.cons_append] at hline
      injection hline with h1 _
      rw [← h1]
      have hdmem : d ∈ s₀ := hd ▸ List.mem_cons_self _ _
      have hs₀mem : s₀ ∈ (counters'.take lvl).map natToStr := hsegs ▸ List.mem_cons_self _ _
      obtain ⟨k, _, hs₀eq⟩ := List.mem_map.mp hs₀mem
      rw [← hs₀eq] at hdmem
      obtain ⟨j, hj, hdeq⟩ := natToStr_mem hdmem
      rw [hdeq]
      exact (digitChar_props hj).2.1
    · intro c cs hline
      obtain ⟨c₀, tr, hrev⟩ := List.exists_cons_of_ne_nil
        (show ttext.reverse ≠ [] from by rwa [Ne, List.reverse_eq_nil_iff])
      rw [List.reverse_append, List.reverse_cons, hrev, List.cons_append,
        List.cons_append] at hline
      injection hline with h1 _
      rw [← h1]
      exact htr _ _ hrev

theorem formatLines_roundtrip :
    ∀ (xs : List ListItem) (counters : List Nat), counters.length = 3 →
      (∀ it ∈ xs, jsTrim it.text ≠ [] ∧ ∀ c ∈ it.text, isLineTerm c = false) →
      ((∀ l ∈ formatLines counters xs, l ≠ [] ∧ '\n' ∉ l ∧ jsTrim l = l) ∧
        formatLines counters ((formatLines counters xs).map normalizeLine) =
          formatLines counters xs) := by
  intro xs
  induction xs with
  | nil =>
    intro counters _ _
    refine ⟨?_, rfl⟩
    intro l hl
    cases hl
  | cons item rest ih =>
    intro counters hc3 hx
    have hitem := hx item (List.mem_cons_self _ _)
    have hrest := fun it hit => hx it (List.mem_cons_of_mem item hit)
    have hlo : 1 ≤ (max 1 (min 3 item.level)).toNat := by
      have h1 := le_max_left 1 (min 3 item.level)
      omega
    have hhi : (max 1 (min 3 item.level)).toNat ≤ 3 := by
      have h1 : max 1 (min 3 item.level) ≤ 3 :=
        max_le (by norm_num) (min_le_left 3 item.level)
      omega
    have hC' : (bumpCounters counters (max 1 (min 3 item.level)).toNat).length = 3 := by
      rw [bumpCounters_length]
      exact hc3
    have hlt : ∀ c ∈ jsTrim item.text, isLineTerm c = false :=
      fun c hc => hitem.2 c (jsTrim_mem hc)
    have hprops := rendered_line_props hC' hlo hhi hitem.1 hlt
      (fun c cs h => jsTrim_head_not c cs h) (fun c cs h => jsTrim_revhead_not c cs h)
    have hih := ih (bumpCounters counters (max 1 (min 3 item.level)).toNat) hC' hrest
    rw [formatLines_cons, if_neg hitem.1]
    constructor
    · intro l hl
      rcases List.mem_cons.mp hl with rfl | hl
      · exact hprops.1
      · exact hih.1 l hl
    · -- re-render equality
      rw [List.map_cons]
      have hnl : normalizeLine
          (joinSep ['.'] (((bumpCounters counters (max 1 (min 3 item.level)).toNat).take
              (max 1 (min 3 item.level)).toNat).map natToStr) ++ ' ' :: jsTrim item.text) =
          createListItem (jsTrim item.text)
            ((((bumpCounters counters (max 1 (min 3 item.level)).toNat).take
              (max 1 (min 3 item.level)).toNat).map natToStr).length : Int) := by
        unfold normalizeLine
        rw [hprops.2.1]
      rw [hnl, hprops.2.2]
      have hcl : clampLevel ((max 1 (min 3 item.level)).toNat : Int) =
          ((max 1 (min 3 item.level)).toNat : Int) := by
        apply clampLevel_of_range
        · exact_mod_cast hlo
        · exact_mod_cast hhi
      rw [formatLines_cons]
      have hlevel_eq : (max 1 (min 3 (createListItem (jsTrim item.text)
          ((max 1 (min 3 item.level)).toNat : Int)).level)).toNat =
          (max 1 (min 3 item.level)).toNat := by
        show (max 1 (min 3 (clampLevel ((max 1 (min 3 item.level)).toNat : Int)))).toNat = _
        rw [hcl]
        rw [min_eq_right (by exact_mod_cast hhi), max_eq_right (by exact_mod_cast hlo)]
        omega
      rw [hlevel_eq]
      have htext_eq : jsTrim (createListItem (jsTrim item.text)
          ((max 1 (min 3 item.level)).toNat : Int)).text = jsTrim item.text := by
        show jsTrim (jsTrim item.text) = jsTrim item.text
        exact jsTrim_idem item.text
      rw [htext_eq, if_neg hitem.1, hih.2]

theorem filter_ne_nil_of_all {ls : List Str} (h : ∀ l ∈ ls, l ≠ []) :
    ls.filter (· ≠ []) = ls := by
  apply List.filter_eq_self.mpr
  intro a ha
  simpa using h a ha

theorem map_self_of_eq {f : Str → Str} :
    ∀ {ls : List Str}, (∀ l ∈ ls, f l = l) → ls.map f = ls := by
  intro ls
  induction ls with
  | nil => intro _; rfl
  | cons l rest ih =>
    intro h
    rw [List.map_cons, h l (List.mem_cons_self _ _),
      ih fun m hm => h m (List.mem_cons_of_mem _ hm)]

/-- C3 (amended).  For every list of items whose texts are non-blank after
trimming and contain no line-terminator characters, rendering, re-deriving
items from the rendered text (`normalizeListItems` with an empty item
array), and rendering again reproduces the same string.  (As stated over
all item lists the claim is false: an item with blank text is dropped from
the rendering but still bumps the counters, and the re-derived list has no
such gap — see the counterexample.) -/
theorem format_roundtrip (items : List ListItem)
    (h : ∀ it ∈ items, jsTrim it.text ≠ [] ∧ ∀ c ∈ it.text, isLineTerm c = false) :
    formatNumberedList
        ((normalizeListItems [] (formatNumberedList (items.map ListItem.raw))).map
          ListItem.raw) =
      formatNumberedList (items.map ListItem.raw) := by
  rcases items with _ | ⟨item₀, items'⟩
  · decide
  · have hne : (item₀ :: items') ≠ [] := by simp
    have hnorm_eq := normalize_map_raw_eq (item₀ :: items') hne
    have hnormp : ∀ it ∈ normalizeListItems ((item₀ :: items').map ListItem.raw) [],
        jsTrim it.text ≠ [] ∧ ∀ c ∈ it.text, isLineTerm c = false := by
      rw [hnorm_eq]
      intro it hit
      obtain ⟨it₀, hit₀, rfl⟩ := List.mem_map.mp hit
      exact h it₀ hit₀
    have hmain := formatLines_roundtrip
      (normalizeListItems ((item₀ :: items').map ListItem.raw) []) [0, 0, 0] rfl hnormp
    set norm := normalizeListItems ((item₀ :: items').map ListItem.raw) [] with hnormdef
    set lines := formatLines [0, 0, 0] norm with hlinesdef
    have hlines_ne : lines ≠ [] := by
      intro hl
      have h1 : lines.length = norm.length := formatLines_length norm [0, 0, 0]
      have h2 : norm.length = (item₀ :: items').length := by
        rw [hnorm_eq]
        exact List.length_map _ _
      rw [hl] at h1
      rw [List.length_cons] at h2
      simp at h1
      omega
    have hfmt1 : formatNumberedList ((item₀ :: items').map ListItem.raw) = joinNl lines := by
      unfold formatNumberedList
      rw [← hnormdef, ← hlinesdef, filter_ne_nil_of_all fun l hl => (hmain.1 l hl).1]
    have hparse : normalizeListItems [] (joinNl lines) = lines.map normalizeLine := by
      show (if ([] : List RawItem) ≠ [] then _
        else
          let plines := ((splitNl (joinNl lines)).map jsTrim).filter (· ≠ [])
          if plines ≠ [] then plines.map normalizeLine
          else [createListItem [] 1]) = lines.map normalizeLine
      rw [if_neg (by simp)]
      show (if ((splitNl (joinNl lines)).map jsTrim).filter (· ≠ []) ≠ [] then
          (((splitNl (joinNl lines)).map jsTrim).filter (· ≠ [])).map normalizeLine
        else [createListItem [] 1]) = lines.map normalizeLine
      rw [splitNl_joinNl hlines_ne fun l hl => (hmain.1 l hl).2.1]
      rw [map_self_of_eq fun l hl => (hmain.1 l hl).2.2]
      rw [filter_ne_nil_of_all fun l hl => (hmain.1 l hl).1]
      rw [if_pos hlines_ne]
    have hparsed_ne : lines.map normalizeLine ≠ [] := by
      intro hl
      rw [List.map_eq_nil_iff] at hl
      exact hlines_ne hl
    have hpid : ∀ p ∈ lines.map normalizeLine, p.id ≠ [] := by
      intro p hp
      obtain ⟨l, _, rfl⟩ := List.mem_map.mp hp
      rw [normalizeLine_id]
      decide
    have hplv : ∀ p ∈ lines.map normalizeLine, clampLevel p.level = p.level := by
      intro p hp
      obtain ⟨l, _, rfl⟩ := List.mem_map.mp hp
      exact normalizeLine_level l
    have hpnorm := normalize_map_raw_id hparsed_ne hpid hplv
    rw [hfmt1, hparse]
    unfold formatNumberedList
    rw [hpnorm, hmain.2, filter_ne_nil_of_all fun l hl => (hmain.1 l hl).1]

/-- The item list refuting C3 as stated: a blank middle item bumps the
counters in the first rendering but leaves no trace in the re-derived
list. -/
def c3CexItems : List ListItem :=
  [⟨"i1".data, "a".data, 1⟩, ⟨"i2".data, "".data, 1⟩, ⟨"i3".data, "b".data, 1⟩]

/-- C3, counterexample to the claim as stated: the round trip through text
renders `"1 a\n3 b"` first and `"1 a\n2 b"` after re-deriving. -/
theorem format_roundtrip_counterexample :
    ¬ formatNumberedList
        ((normalizeListItems [] (formatNumberedList (c3CexItems.map ListItem.raw))).map
          ListItem.raw) =
      formatNumberedList (c3CexItems.map ListItem.raw) := by
  decide

/-- The item list instantiating the C3 theorem. -/
def c3WitItems : List ListItem :=
  [⟨"i1".data, "hello".data, 1⟩, ⟨"i2".data, "world".data, 2⟩]

/-- C3, witness: the amended round-trip theorem applied to a concrete
item list. -/
theorem format_roundtrip_witness :
    (∀ it ∈ c3WitItems, jsTrim it.text ≠ [] ∧ ∀ c ∈ it.text, isLineTerm c = false) ∧
      formatNumberedList
          ((normalizeListItems [] (formatNumberedList (c3WitItems.map ListItem.raw))).map
            ListItem.raw) =
        formatNumberedList (c3WitItems.map ListItem.raw) :=
  ⟨by decide, format_roundtrip c3WitItems (by decide)⟩

/-! ### The text importer (`parsePromptTextToGraph`) -/

/-- ASCII lower-casing (the case-insensitive matches of the importer only
involve ASCII role words). -/
def lowerChar (c : Char) : Char :=
  if 'A' ≤ c ∧ c ≤ 'Z' then Char.ofNat (c.toNat + 32) else c

/-- ASCII upper-casing. -/
def upperChar (c : Char) : Char :=
  if 'a' ≤ c ∧ c ≤ 'z' then Char.ofNat (c.toNat - 32) else c

/-- JavaScript `s.toUpperCase()` for the strings this code upper-cases. -/
def jsToUpper (s : Str) : Str := s.map upperChar

/-- `role[0].toUpperCase() + role.slice(1)`. -/
def capitalizeRole (role : Str) : Str :=
  match role with
  | [] => []
  | c :: cs => upperChar c :: cs

/-- A minimal JSON value, the possible results of the platform's
`JSON.parse`. -/
inductive Js where
  | null
  | bool (b : Bool)
  | num (n : Int)
  | str (s : Str)
  | arr (xs : List Js)
  | obj (fields : List (Str × Js))

/-- JavaScript property access `j[key]` (only objects have fields). -/
def Js.get : Js → Str → Option Js
  | .obj fields, key => (fields.find? fun f => decide (f.1 = key)).map (·.2)
  | _, _ => none

/-- JavaScript truthiness of a JSON value. -/
def Js.truthy : Js → Bool
  | .null => false
  | .bool b => b
  | .num n => decide (n ≠ 0)
  | .str s => decide (s ≠ [])
  | .arr _ => true
  | .obj _ => true

/-- `Array.isArray(j[key])`. -/
def jsFieldIsArr (j : Js) (key : Str) : Bool :=
  match j.get key with
  | some (.arr _) => true
  | _ => false

/-- The suffix after the first (case-insensitive) occurrence of `needle`
(`needle` given in lower case). -/
def afterFirstCI (needle : Str) : Str → Option Str
  | [] => if needle = [] then some [] else none
  | c :: rest =>
    if ((c :: rest).take needle.length).map lowerChar = needle then
      some ((c :: rest).drop needle.length)
    else afterFirstCI needle rest

/-- The text before the first triple-backtick fence. -/
def upToFence : Str → Option Str
  | [] => none
  | c :: rest =>
    if (c :: rest).take 3 = "```".data then some []
    else
      match upToFence rest with
      | none => none
      | some body => some (c :: body)

/-- The fenced-block regex `` ```json\s*([\s\S]*?)\s*``` `` (case
insensitive): the captured body is the text between the `` ```json ``
opener and the first closing fence, with the surrounding whitespace
absorbed by the two `\s*`. -/
def searchFenced (s : Str) : Option Str :=
  match afterFirstCI "```json".data s with
  | none => none
  | some after => (upToFence after).map jsTrim

/-- The greedy brace regex `({[\s\S]*})`: from the first `{` to the last
`}`, provided the `}` comes after the `{`. -/
def searchBrace (s : Str) : Option Str :=
  let t := s.dropWhile fun c => decide (c ≠ '{')
  let r := t.reverse.dropWhile fun c => decide (c ≠ '}')
  if t = [] ∨ r.length < 2 then none else some r.reverse

/-- `extractJsonObject` from the source.  The platform's `JSON.parse` is
modelled by the `jsonParse` parameter (`none` stands for a parse
exception). -/
def extractJsonObject (jsonParse : Str → Option Js) (text : Str) : Option Js :=
  if text = [] then none
  else
    match jsonParse (jsTrim text) with
    | some v => some v
    | none =>
      match
        (match searchFenced (jsTrim text) with
         | some b => some b
         | none => searchBrace (jsTrim text)) with
      | none => none
      | some captured => jsonParse captured

/-- A parent block of the bracket parent/child import dialect. -/
structure ParentBlock where
  parentNo : Str
  role : Str
  children : List Str
deriving DecidableEq, Repr

/-- The role alternation `SYSTEM|USER|ASSISTANT` (case-insensitive):
the lower-cased role and the rest of the line. -/
def stripRoleCI (s : Str) : Option (Str × Str) :=
  if (s.take 6).map lowerChar = "system".data then some ("system".data, s.drop 6)
  else if (s.take 4).map lowerChar = "user".data then some ("user".data, s.drop 4)
  else if (s.take 9).map lowerChar = "assistant".data then some ("assistant".data, s.drop 9)
  else none

/-- The role alternation `SYSTEM|USER|ASSISTANT|CONDITION`. -/
def stripRole4CI (s : Str) : Option (Str × Str) :=
  match stripRoleCI s with
  | some r => some r
  | none =>
    if (s.take 9).map lowerChar = "condition".data then some ("condition".data, s.drop 9)
    else none

/-- `^\[(\d+)\]\s*(SYSTEM|USER|ASSISTANT)\s*$` (case-insensitive) on a
trimmed line: the captured digits and the lower-cased role. -/
def matchParentHeader (line : Str) : Option (Str × Str) :=
  match line with
  | '[' :: rest =>
    if (spanDigits rest).1 = [] then none
    else
      match (spanDigits rest).2 with
      | ']' :: rest₂ =>
        match stripRoleCI (rest₂.dropWhile jsIsWs) with
        | none => none
        | some (role, rest₃) =>
          if rest₃.all jsIsWs then some ((spanDigits rest).1, role) else none
      | _ => none
  | _ => none

/-- ``^`${parentNo}`\.\d+\s+(.+)$`` : the captured child text. -/
def matchChild (parentNo : Str) (line : Str) : Option Str :=
  if line.take parentNo.length = parentNo then
    match line.drop parentNo.length with
    | '.' :: rest =>
      if (spanDigits rest).1 = [] then none
      else matchTail (spanDigits rest).2
    | _ => none
  else none

/-- The scanning state of the parent/child pass. -/
structure PCState where
  blocks : List ParentBlock
  current : Option ParentBlock
deriving DecidableEq, Repr

/-- One line of the parent/child scan: blank lines are skipped, a header
opens a new parent (pushing the previous one), a child line appends a
trimmed child, any other line extends the last child (space-joined) or is
dropped when the parent has no children yet. -/
def parentChildStep (st : PCState) (line : Str) : PCState :=
  let trimmed := jsTrim line
  if trimmed = [] then st
  else
    match matchParentHeader trimmed with
    | some (no, role) =>
      { blocks :=
          match st.current with
          | some p => st.blocks ++ [p]
          | none => st.blocks
        current := some ⟨no, role, []⟩ }
    | none =>
      match st.current with
      | none => st
      | some p =>
        match matchChild p.parentNo trimmed with
        | some text =>
          { st with current := some { p with children := p.children ++ [jsTrim text] } }
        | none =>
          match p.children.getLast? with
          | none => st
          | some last =>
            { st with current := some { p with children :=
                p.children.dropLast ++ [jsTrim (last ++ ' ' :: trimmed)] } }

/-- The complete parent/child pass over the raw lines (the still-open
parent is pushed at the end). -/
def parentChildBlocks (rawLines : List Str) : List ParentBlock :=
  let st := rawLines.foldl parentChildStep ⟨[], none⟩
  match st.current with
  | some p => st.blocks ++ [p]
  | none => st.blocks

/-- A parent's rendered content: a 1-based `"n. child"` list, or
`"No content"` when it has no children. -/
def blockContent (b : ParentBlock) : Str :=
  if b.children = [] then "No content".data
  else joinNl (b.children.mapIdx fun i child => natToStr (i + 1) ++ '.' :: ' ' :: child)

/-- `import-<1-based index>`. -/
def importNodeId (i : Nat) : Str := "import-".data ++ natToStr (i + 1)

/-- The chain edges `node[i] → node[i+1]`. -/
def chainEdges (nodes : List GNode) : List GEdge :=
  (nodes.zip nodes.tail).map fun p => ⟨p.1.id, p.2.id⟩

/-- A node of the outline dialect before ids are assigned. -/
structure OutlineNode where
  role : Str
  label : Str
  content : Str
deriving DecidableEq, Repr

/-- One line of the outline scan: a dotted-number line becomes a user
node labelled with the current section, any other line replaces the
current section. -/
def outlineFold (acc : List OutlineNode × Str) (line : Str) : List OutlineNode × Str :=
  match matchNumbered ['.', ')'] line with
  | some (segs, text) =>
    let stepNo := joinSep ['.'] segs
    let stepText := jsTrim text
    if stepText = [] then acc
    else
      (acc.1 ++
        [{ role := "user".data
           label :=
             if acc.2 ≠ [] then acc.2 ++ ' ' :: '(' :: (stepNo ++ [')'])
             else "Step ".data ++ stepNo
           content := if acc.2 ≠ [] then acc.2 ++ ':' :: ' ' :: stepText else stepText }],
        acc.2)
  | none => (acc.1, line)

/-- The whitespace of a run after its last newline. -/
def afterLastNl (ws : Str) : Str :=
  (ws.reverse.takeWhile fun c => decide (c ≠ '\n')).reverse

/-- The block-regex header `\[\d+\]\s*(SYSTEM|USER|ASSISTANT|CONDITION)\s*\n`
(case-insensitive): the lower-cased role and the text after the header
(the trailing `\s*\n` consumes the whitespace run up to its last
newline). -/
def matchBlockHeader (s : Str) : Option (Str × Str) :=
  match s with
  | '[' :: rest =>
    if (spanDigits rest).1 = [] then none
    else
      match (spanDigits rest).2 with
      | ']' :: rest₂ =>
        match stripRole4CI (rest₂.dropWhile jsIsWs) with
        | none => none
        | some (role, rest₃) =>
          if '\n' ∈ rest₃.takeWhile jsIsWs then
            some (role, afterLastNl (rest₃.takeWhile jsIsWs) ++ rest₃.dropWhile jsIsWs)
          else none
      | _ => none
  | _ => none

/-- The leftmost position where a block header matches. -/
def findHeader : Str → Option (Str × Str)
  | [] => none
  | c :: rest =>
    match matchBlockHeader (c :: rest) with
    | some r => some r
    | none => findHeader rest

/-- The lazy block body `([\s\S]*?)` up to the lookahead
`(?=\n<header>|$)`: the body and the unconsumed rest. -/
def takeBody : Str → (Str × Str)
  | [] => ([], [])
  | c :: rest =>
    if c = '\n' ∧ (matchBlockHeader rest).isSome then ([], c :: rest)
    else
      let p := takeBody rest
      (c :: p.1, p.2)

/-- The global `blockRegex` scan: every `[n] ROLE` block with its trimmed
body, in order. -/
def scanBlocks : Nat → Str → List (Str × Str)
  | 0, _ => []
  | fuel + 1, s =>
    match findHeader s with
    | none => []
    | some (role, afterHeader) =>
      (role, jsTrim (takeBody afterHeader).1) :: scanBlocks fuel (takeBody afterHeader).2

/-- `^(system|user|assistant|condition)\s*:\s*(.+)$` (case-insensitive):
the lower-cased role and the trimmed content. -/
def matchRoleLine (line : Str) : Option (Str × Str) :=
  match stripRole4CI line with
  | none => none
  | some (role, rest) =>
    match rest.dropWhile jsIsWs with
    | ':' :: rest₂ =>
      let t := rest₂.dropWhile jsIsWs
      if t ≠ [] then
        if t.any isLineTerm then none else some (role, jsTrim t)
      else
        match rest₂.reverse with
        | last :: _ => if isLineTerm last then none else some (role, jsTrim [last])
        | [] => none
    | _ => none

/-- The result of `parsePromptTextToGraph`: the error record, or a graph —
the JSON dialect returns the parsed JSON value as-is, the text dialects a
canonical node/edge graph. -/
inductive ParseResult where
  | error (msg : Str)
  | jsonGraph (j : Js)
  | graph (g : Graph)

/-- The non-JSON dialects of `parsePromptTextToGraph`, tried in order on
the trimmed non-empty input: parent/child brackets, numbered outline,
role blocks, role lines, raw fallback.  Every branch returns a graph. -/
def parseTextDialects (raw : Str) : ParseResult :=
  let blocks := parentChildBlocks (splitNl raw)
  if blocks ≠ [] then
    let nodes := blocks.mapIdx fun i b =>
      GNode.mk (importNodeId i) b.role (capitalizeRole b.role) (blockContent b)
    .graph ⟨nodes, chainEdges nodes⟩
  else
    let lines := ((splitNl raw).map jsTrim).filter (· ≠ [])
    let outline := (lines.foldl outlineFold ([], [])).1
    if outline ≠ [] then
      let nodes := outline.mapIdx fun i o =>
        GNode.mk (importNodeId i) o.role o.label o.content
      .graph ⟨nodes, chainEdges nodes⟩
    else
      let blocks4 := (scanBlocks (raw.length + 1) raw).filter fun b => decide (b.2 ≠ [])
      let lineNodes := lines.filterMap matchRoleLine
      let parsed₁ := if blocks4 ≠ [] then blocks4 else lineNodes
      let parsed₂ := if parsed₁ ≠ [] then parsed₁ else [("user".data, raw)]
      let nodes := parsed₂.mapIdx fun i rc =>
        GNode.mk (importNodeId i) rc.1 (capitalizeRole rc.1) rc.2
      .graph ⟨nodes, chainEdges nodes⟩

/-- `parsePromptTextToGraph` from the source (`jsonParse` models the
platform's `JSON.parse`). -/
def parsePromptTextToGraph (jsonParse : Str → Option Js) (text : Str) : ParseResult :=
  if jsTrim text = [] then .error "Prompt text is empty.".data
  else
    match extractJsonObject jsonParse (jsTrim text) with
    | some j =>
      if j.truthy && jsFieldIsArr j "nodes".data && jsFieldIsArr j "edges".data then
        .jsonGraph j
      else parseTextDialects (jsTrim text)
    | none => parseTextDialects (jsTrim text)

/-- The dialect cascade never fails: whatever the input, one of its five
branches produces a graph. -/
theorem parseTextDialects_graph (raw : Str) : ∃ g, parseTextDialects raw = .graph g := by
  simp only [parseTextDialects]
  repeat' split
  all_goals exact ⟨_, rfl⟩

/-- C5: `parsePromptTextToGraph` returns the error result exactly when the
input trims to the empty string (and then with the fixed message
"Prompt text is empty."); every input that is non-empty after trimming
yields a graph result, whatever `JSON.parse` does. -/
theorem parse_error_iff (jsonParse : Str → Option Js) (text e : Str) :
    parsePromptTextToGraph jsonParse text = .error e ↔
      jsTrim text = [] ∧ e = "Prompt text is empty.".data := by
  constructor
  · intro h
    unfold parsePromptTextToGraph at h
    by_cases hr : jsTrim text = []
    · rw [if_pos hr] at h
      injection h with h'
      exact ⟨hr, h'.symm⟩
    · rw [if_neg hr] at h
      obtain ⟨g, hg⟩ := parseTextDialects_graph (jsTrim text)
      exfalso
      cases hext : extractJsonObject jsonParse (jsTrim text) with
      | none =>
        rw [hext, hg] at h
        exact ParseResult.noConfusion h
      | some j =>
        rw [hext] at h
        dsimp only at h
        split at h
        · exact ParseResult.noConfusion h
        · rw [hg] at h
          exact ParseResult.noConfusion h
  · rintro ⟨hr, rfl⟩
    unfold parsePromptTextToGraph
    rw [if_pos hr]

/-- Trimming is the identity on the single-space join of two non-empty
already-trimmed strings. -/
theorem jsTrim_append_space {a b : Str} (ha : jsTrim a = a) (hna : a ≠ [])
    (hb : jsTrim b = b) (hnb : b ≠ []) :
    jsTrim (a ++ ' ' :: b) = a ++ ' ' :: b := by
  have hbr : b.reverse ≠ [] := fun h => hnb (List.reverse_eq_nil_iff.mp h)
  obtain ⟨a0, ar, rfl⟩ := List.exists_cons_of_ne_nil hna
  obtain ⟨bl, br, hbrev⟩ := List.exists_cons_of_ne_nil hbr
  apply jsTrim_eq_self
  · intro c cs h
    rw [List.cons_append] at h
    injection h with h1 _
    exact h1 ▸ jsTrim_head_not a0 ar ha
  · intro c cs h
    rw [List.reverse_append, List.reverse_cons, hbrev, List.cons_append,
      List.cons_append] at h
    injection h with h1 _
    exact h1 ▸ jsTrim_revhead_not bl br (by rw [hb, hbrev])

/-- C7: while a parent with at least one child is open, a line that trims
to something non-empty and matches neither the parent-header pattern nor
the child pattern of the current parent is appended to the last child's
text, joined by a single space (children are kept trimmed, so the final
trim adds or removes nothing). -/
theorem continuation_line_space_joined (st : PCState) (line : Str)
    (p : ParentBlock) (last : Str)
    (hcur : st.current = some p)
    (hlast : p.children.getLast? = some last)
    (hltrim : jsTrim last = last) (hlne : last ≠ [])
    (hne : jsTrim line ≠ [])
    (hhdr : matchParentHeader (jsTrim line) = none)
    (hchild : matchChild p.parentNo (jsTrim line) = none) :
    parentChildStep st line =
      { st with current := some { p with children :=
          p.children.dropLast ++ [last ++ ' ' :: jsTrim line] } } := by
  simp only [parentChildStep]
  rw [if_neg hne]
  split
  · next heq => rw [hhdr] at heq; exact Option.noConfusion heq
  · split
    · next heq => rw [hcur] at heq; exact Option.noConfusion heq
    · next p' heq =>
      rw [hcur] at heq
      injection heq with heq'
      subst heq'
      split
      · next heq => rw [hchild] at heq; exact Option.noConfusion heq
      · split
        · next heq => rw [hlast] at heq; exact Option.noConfusion heq
        · next last' heq =>
          rw [hlast] at heq
          injection heq with heq'
          subst heq'
          rw [jsTrim_append_space hltrim hlne (jsTrim_idem line) hne]

/-- A concrete scan state for the continuation rule: parent 1 is open
with one child. -/
def c7WitState : PCState :=
  ⟨[], some ⟨"1".data, "system".data, ["Be concise.".data]⟩⟩

/-- C7, witness: the continuation rule applied to the concrete open
parent and the line "and short.". -/
theorem continuation_line_space_joined_witness :
    parentChildStep c7WitState " and short. ".data =
      ⟨[], some ⟨"1".data, "system".data, ["Be concise. and short.".data]⟩⟩ :=
  (continuation_line_space_joined c7WitState " and short. ".data
      ⟨"1".data, "system".data, ["Be concise.".data]⟩ "Be concise.".data
      rfl rfl (by decide) (by decide) (by decide) (by decide) (by decide)).trans
    (by decide)

/-- The import text of the C8 scenario. -/
def c8Text : Str :=
  "[1] SYSTEM\n1.1 Be concise.\n[2] USER\n2.1 Ask a question.".data

/-- C8: importing the scenario text yields exactly the two-node chain —
a system node with content "1. Be concise.", a user node with content
"1. Ask a question." and one edge from the first to the second (the text
is not valid JSON, so `JSON.parse` rejects it). -/
theorem import_scenario (jp : Str → Option Js) (hjp : jp c8Text = none) :
    parsePromptTextToGraph jp c8Text =
      .graph
        ⟨[⟨"import-1".data, "system".data, "System".data, "1. Be concise.".data⟩,
          ⟨"import-2".data, "user".data, "User".data, "1. Ask a question.".data⟩],
         [⟨"import-1".data, "import-2".data⟩]⟩ := by
  have htrim : jsTrim c8Text = c8Text := by decide
  have hext : extractJsonObject jp c8Text = none := by
    unfold extractJsonObject
    rw [if_neg (by decide : ¬c8Text = []), htrim, hjp,
      show searchFenced c8Text = none from by decide,
      show searchBrace c8Text = none from by decide]
  unfold parsePromptTextToGraph
  rw [htrim, if_neg (by decide : ¬c8Text = []), hext]
  show parseTextDialects c8Text = _
  rfl

/-- C8, witness: the scenario theorem at the always-failing
`JSON.parse`. -/
theorem import_scenario_witness :
    ((fun _ => none : Str → Option Js) c8Text = none) ∧
      parsePromptTextToGraph (fun _ => none) c8Text =
        .graph
          ⟨[⟨"import-1".data, "system".data, "System".data, "1. Be concise.".data⟩,
            ⟨"import-2".data, "user".data, "User".data, "1. Ask a question.".data⟩],
           [⟨"import-1".data, "import-2".data⟩]⟩ :=
  ⟨rfl, import_scenario (fun _ => none) rfl⟩

/-! ### The sequencer (`buildPromptOutput`) -/

/-- `new Map(nodes.map(n => [n.id, n]))`: a JavaScript `Map` keeps the
last entry written to a key. -/
def buildNodeMap (nodes : List RFNode) : Str → Option RFNode :=
  nodes.foldl (fun m n => Function.update m n.id (some n)) fun _ => none

/-- The `outgoing` adjacency map: each edge pushes its target onto the
source's list. -/
def buildOutgoing (edges : List RFEdge) : Str → List Str :=
  edges.foldl (fun m e => Function.update m e.source (m e.source ++ [e.target])) fun _ => []

/-- The `indegree` map after the edge loop.  The source initialises every
node id to 0 and reads absent keys with `?? 0`, so a total map with
default 0 is the same reader. -/
def buildIndeg (edges : List RFEdge) : Str → Nat :=
  edges.foldl (fun m e => Function.update m e.target (m e.target + 1)) fun _ => 0

/-- The target comparator of the walk: ascending canvas y then x of the
looked-up nodes; a pair with a missing node compares 0 (keep order). -/
def posLe (nodeMap : Str → Option RFNode) (a b : Str) : Bool :=
  match nodeMap a, nodeMap b with
  | some na, some nb =>
    decide (na.position.2 < nb.position.2) ||
      (decide (na.position.2 = nb.position.2) && decide (na.position.1 ≤ nb.position.1))
  | _, _ => true

/-- The `starts` comparator: ascending y, then x. -/
def nodePosLe (a b : RFNode) : Bool :=
  decide (a.position.2 < b.position.2) ||
    (decide (a.position.2 = b.position.2) && decide (a.position.1 ≤ b.position.1))

/-- The recursive `walk` over a worklist of ids, threading
`(visited, ordered)`.  A worklist is always processed in full; `fuel`
only bounds the nesting depth of the recursive dives into sorted
targets.  A dive happens at most once per node id (the id must be
fresh), so depth `nodes.length + 1` is never exhausted. -/
def walkAux (nodeMap : Str → Option RFNode) (outgoing : Str → List Str) :
    Nat → List Str × List RFNode → List Str → List Str × List RFNode
  | 0, st, _ => st
  | fuel + 1, st, ids =>
    ids.foldl
      (fun st id =>
        if id ∈ st.1 then st
        else
          match nodeMap id with
          | none => (st.1 ++ [id], st.2)
          | some node =>
            walkAux nodeMap outgoing fuel (st.1 ++ [id], st.2 ++ [node])
              (sortLe (posLe nodeMap) (outgoing id)))
      st

/-- One step of the walk on a single id (the body of the worklist
fold). -/
def walkStep (nodeMap : Str → Option RFNode) (outgoing : Str → List Str)
    (fuel : Nat) (st : List Str × List RFNode) (id : Str) : List Str × List RFNode :=
  if id ∈ st.1 then st
  else
    match nodeMap id with
    | none => (st.1 ++ [id], st.2)
    | some node =>
      walkAux nodeMap outgoing fuel (st.1 ++ [id], st.2 ++ [node])
        (sortLe (posLe nodeMap) (outgoing id))

theorem walkAux_nil {nm : Str → Option RFNode} {og : Str → List Str} {fuel : Nat}
    {st : List Str × List RFNode} : walkAux nm og (fuel + 1) st [] = st := rfl

theorem walkAux_cons {nm : Str → Option RFNode} {og : Str → List Str} {fuel : Nat}
    {st : List Str × List RFNode} {id : Str} {rest : List Str} :
    walkAux nm og (fuel + 1) st (id :: rest) =
      walkAux nm og (fuel + 1) (walkStep nm og fuel st id) rest := rfl

/-- An entry of the output `sequence`. -/
structure SeqItem where
  step : Nat
  id : Str
  role : Str
  label : Str
  content : Str
deriving DecidableEq, Repr

/-- The result record of `buildPromptOutput`. -/
structure PromptOutput where
  sequence : List SeqItem
  structuredPrompt : Str
  graph : Graph
deriving DecidableEq, Repr

/-- `Array.prototype.join` with an arbitrary separator. -/
def joinWith (sep : Str) : List Str → Str
  | [] => []
  | [s] => s
  | s :: rest => s ++ sep ++ joinWith sep rest

/-- `buildPromptOutput` from the source. -/
def buildPromptOutput (nodes : List RFNode) (edges : List RFEdge) : PromptOutput :=
  if nodes = [] then ⟨[], [], ⟨[], []⟩⟩
  else
    let nodeMap := buildNodeMap nodes
    let outgoing := buildOutgoing edges
    let indeg := buildIndeg edges
    let starts := sortLe nodePosLe (nodes.filter fun n => decide (indeg n.id = 0))
    let walked :=
      walkAux nodeMap outgoing (nodes.length + 1)
        (walkAux nodeMap outgoing (nodes.length + 1) ([], []) (starts.map (·.id)))
        (nodes.map (·.id))
    let sequence := walked.2.mapIdx fun i node =>
      SeqItem.mk (i + 1) node.id node.data.role node.data.label node.data.content
    let structuredPrompt := joinWith "\n\n".data (sequence.map fun item =>
      '[' :: (natToStr item.step ++ ']' :: ' ' :: (jsToUpper item.role ++
        '\n' :: (if item.content = [] then "(empty)".data else item.content))))
    ⟨sequence, structuredPrompt,
      ⟨nodes.map fun n => ⟨n.id, n.data.role, n.data.label, n.data.content⟩,
       edges.map fun e => ⟨e.source, e.target⟩⟩⟩

/-- The visited list only grows (as a prefix) during a walk. -/
theorem walkAux_grows (nm : Str → Option RFNode) (og : Str → List Str) :
    ∀ fuel ids st, st.1 <+: (walkAux nm og fuel st ids).1 := by
  intro fuel
  induction fuel with
  | zero => intro ids st; exact List.prefix_refl _
  | succ fuel ih =>
    intro ids
    induction ids with
    | nil => intro st; exact List.prefix_refl _
    | cons id rest ihr =>
      intro st
      rw [walkAux_cons]
      refine List.IsPrefix.trans ?_ (ihr _)
      unfold walkStep
      split
      · exact List.prefix_refl _
      · split
        · exact List.prefix_append _ _
        · refine List.IsPrefix.trans ?_ (ih _ _)
          exact List.prefix_append _ _

/-- With at least one unit of fuel, every id of the worklist ends up
visited. -/
theorem walkAux_mem (nm : Str → Option RFNode) (og : Str → List Str) (fuel : Nat) :
    ∀ ids st i, i ∈ ids → i ∈ (walkAux nm og (fuel + 1) st ids).1 := by
  intro ids
  induction ids with
  | nil => intro st i hi; cases hi
  | cons id rest ihr =>
    intro st i hi
    rw [walkAux_cons]
    rcases List.mem_cons.mp hi with rfl | hi'
    · have hstep : i ∈ (walkStep nm og fuel st i).1 := by
        unfold walkStep
        split
        · next h => exact h
        · split
          · exact List.mem_append.mpr (Or.inr (List.mem_cons_self _ _))
          · exact (walkAux_grows nm og _ _ _).subset
              (List.mem_append.mpr (Or.inr (List.mem_cons_self _ _)))
      exact (walkAux_grows nm og _ _ _).subset hstep
    · exact ihr _ i hi'

/-- The walk never visits an id twice. -/
theorem walkAux_nodup (nm : Str → Option RFNode) (og : Str → List Str) :
    ∀ fuel ids st, st.1.Nodup → (walkAux nm og fuel st ids).1.Nodup := by
  intro fuel
  induction fuel with
  | zero => intro ids st h; exact h
  | succ fuel ih =>
    intro ids
    induction ids with
    | nil => intro st h; exact h
    | cons id rest ihr =>
      intro st h
      rw [walkAux_cons]
      refine ihr _ ?_
      unfold walkStep
      split
      · exact h
      · next hni =>
        have happ : (st.1 ++ [id]).Nodup := by
          rw [List.nodup_append]
          exact ⟨h, List.nodup_singleton _, by simpa using hni⟩
        split
        · exact happ
        · exact ih _ _ happ

/-- Invariant of the walk: the ordered nodes are exactly the visited ids
that resolve in the node map, in visit order. -/
theorem walkAux_ord (nm : Str → Option RFNode) (og : Str → List Str)
    (hkey : ∀ i n, nm i = some n → n.id = i) :
    ∀ fuel ids st, st.2.map (·.id) = st.1.filter (fun i => (nm i).isSome) →
      (walkAux nm og fuel st ids).2.map (·.id) =
        (walkAux nm og fuel st ids).1.filter (fun i => (nm i).isSome) := by
  intro fuel
  induction fuel with
  | zero => intro ids st h; exact h
  | succ fuel ih =>
    intro ids
    induction ids with
    | nil => intro st h; exact h
    | cons id rest ihr =>
      intro st h
      rw [walkAux_cons]
      refine ihr _ ?_
      unfold walkStep
      split
      · exact h
      · split
        · next heq =>
          show st.2.map (·.id) = (st.1 ++ [id]).filter (fun i => (nm i).isSome)
          rw [List.filter_append, h]
          simp [heq]
        · next node heq =>
          refine ih _ _ ?_
          show (st.2 ++ [node]).map (·.id) = (st.1 ++ [id]).filter (fun i => (nm i).isSome)
          rw [List.filter_append, List.map_append, h]
          have : node.id = id := hkey id node heq
          simp [heq, this]

/-- A value stored in the node map carries its own key as id. -/
theorem buildNodeMap_key :
    ∀ (nodes : List RFNode) (m : Str → Option RFNode),
      (∀ (i : Str) (n : RFNode), m i = some n → n.id = i) →
      ∀ (i : Str) (n : RFNode),
        nodes.foldl (fun (m : Str → Option RFNode) n =>
          Function.update m n.id (some n)) m i = some n →
        n.id = i := by
  intro nodes
  induction nodes with
  | nil => intro m hm; exact hm
  | cons nd rest ih =>
    intro m hm
    rw [List.foldl_cons]
    refine ih _ ?_
    intro i n h
    by_cases hi : i = nd.id
    · subst hi
      rw [Function.update_same] at h
      injection h with h'
      rw [← h']
    · rw [Function.update_noteq hi] at h
      exact hm i n h

theorem buildNodeMap_id (nodes : List RFNode) :
    ∀ i n, buildNodeMap nodes i = some n → n.id = i :=
  buildNodeMap_key nodes _ (fun _ _ h => Option.noConfusion h)

/-- The node map resolves exactly the node ids. -/
theorem buildNodeMap_isSome_aux :
    ∀ (nodes : List RFNode) (m : Str → Option RFNode) (i : Str),
      ((nodes.foldl (fun (m : Str → Option RFNode) n =>
          Function.update m n.id (some n)) m) i).isSome = true ↔
        (i ∈ nodes.map (·.id) ∨ (m i).isSome = true) := by
  intro nodes
  induction nodes with
  | nil => intro m i; simp
  | cons nd rest ih =>
    intro m i
    rw [List.foldl_cons, ih]
    simp only [List.map_cons, List.mem_cons]
    by_cases hi : i = nd.id
    · subst hi
      rw [Function.update_same]
      simp
    · rw [Function.update_noteq hi]
      simp [hi]

theorem buildNodeMap_isSome (nodes : List RFNode) (i : Str) :
    (buildNodeMap nodes i).isSome = true ↔ i ∈ nodes.map (·.id) := by
  unfold buildNodeMap
  rw [buildNodeMap_isSome_aux]
  simp

/-- Projecting the ids out of the sequence gives the ids of the ordered
nodes. -/
theorem map_seqId_mapIdx :
    ∀ (l : List RFNode) (g : Nat → Nat),
      ((l.mapIdx fun i node =>
          SeqItem.mk (g i) node.id node.data.role node.data.label node.data.content).map
        SeqItem.id) = l.map (·.id) := by
  intro l
  induction l with
  | nil => intro g; rfl
  | cons a l ih =>
    intro g
    rw [List.mapIdx_cons, List.map_cons, List.map_cons, ih fun i => g (i + 1)]

/-- `List.count` on strings does not depend on which lawful `BEq`
instance is in scope. -/
theorem count_beq_count (a : Str) (l : List Str) :
    l.count a = @List.count Str instBEqOfDecidableEq a l := by
  induction l with
  | nil => rfl
  | cons b t ih =>
    rw [List.count_cons, @List.count_cons Str instBEqOfDecidableEq, ih]
    congr 1
    by_cases h : b = a <;> simp [h]

/-- C4 (amended): when the node ids are pairwise distinct,
`buildPromptOutput` returns a sequence whose length equals `nodes.length`
and in which every node id appears exactly once — for every edge list,
cyclic, disconnected or dangling. -/
theorem buildPromptOutput_coverage (nodes : List RFNode) (edges : List RFEdge)
    (hnd : (nodes.map (·.id)).Nodup) :
    (buildPromptOutput nodes edges).sequence.length = nodes.length ∧
      ∀ n ∈ nodes,
        ((buildPromptOutput nodes edges).sequence.map SeqItem.id).count n.id = 1 := by
  by_cases hn : nodes = []
  · subst hn
    exact ⟨rfl, fun n hn' => absurd hn' (List.not_mem_nil n)⟩
  · have hseq : (buildPromptOutput nodes edges).sequence =
        (walkAux (buildNodeMap nodes) (buildOutgoing edges) (nodes.length + 1)
            (walkAux (buildNodeMap nodes) (buildOutgoing edges) (nodes.length + 1) ([], [])
              ((sortLe nodePosLe
                (nodes.filter fun n => decide (buildIndeg edges n.id = 0))).map (·.id)))
            (nodes.map (·.id))).2.mapIdx
          fun i node =>
            SeqItem.mk (i + 1) node.id node.data.role node.data.label node.data.content := by
      simp only [buildPromptOutput]
      rw [if_neg hn]
    set nm := buildNodeMap nodes with hnm
    set og := buildOutgoing edges with hog
    set st1 := walkAux nm og (nodes.length + 1) ([], [])
      ((sortLe nodePosLe
        (nodes.filter fun n => decide (buildIndeg edges n.id = 0))).map (·.id)) with hst1
    set walked := walkAux nm og (nodes.length + 1) st1 (nodes.map (·.id)) with hwalked
    have hkey : ∀ i n, nm i = some n → n.id = i := buildNodeMap_id nodes
    have hnodup : walked.1.Nodup := by
      rw [hwalked, hst1]
      exact walkAux_nodup nm og _ _ _ (walkAux_nodup nm og _ _ _ List.nodup_nil)
    have hord : walked.2.map (·.id) = walked.1.filter fun i => (nm i).isSome := by
      rw [hwalked, hst1]
      exact walkAux_ord nm og hkey _ _ _ (walkAux_ord nm og hkey _ _ _ rfl)
    have hcov : ∀ i ∈ nodes.map (·.id), i ∈ walked.1 := by
      intro i hi
      rw [hwalked]
      exact walkAux_mem nm og nodes.length _ _ i hi
    have hmemiff : ∀ i, (i ∈ walked.1.filter fun i => (nm i).isSome) ↔
        i ∈ nodes.map (·.id) := by
      intro i
      rw [List.mem_filter]
      constructor
      · rintro ⟨_, hsome⟩
        exact (buildNodeMap_isSome nodes i).mp hsome
      · intro hi
        exact ⟨hcov i hi, (buildNodeMap_isSome nodes i).mpr hi⟩
    have hperm : List.Perm (walked.1.filter fun i => (nm i).isSome) (nodes.map (·.id)) :=
      (List.perm_ext_iff_of_nodup (List.Nodup.filter _ hnodup) hnd).mpr hmemiff
    have hids : (buildPromptOutput nodes edges).sequence.map SeqItem.id =
        walked.2.map (·.id) := by
      rw [hseq]
      exact map_seqId_mapIdx walked.2 fun i => i + 1
    constructor
    · calc (buildPromptOutput nodes edges).sequence.length
          = ((buildPromptOutput nodes edges).sequence.map SeqItem.id).length := by
            rw [List.length_map]
        _ = (nodes.map (·.id)).length := by rw [hids, hord, hperm.length_eq]
        _ = nodes.length := by rw [List.length_map]
    · intro n hn'
      rw [hids, hord, count_beq_count]
      exact (hperm.count_eq n.id).trans
        (List.count_eq_one_of_mem hnd (List.mem_map.mpr ⟨n, hn', rfl⟩))

/-- Two canvas nodes sharing the id "a". -/
def c4CexNodes : List RFNode :=
  [⟨"a".data, "promptNode".data, (0, 0), ⟨"user".data, "User".data, "c".data, []⟩⟩,
   ⟨"a".data, "promptNode".data, (0, 100), ⟨"user".data, "User".data, "c".data, []⟩⟩]

/-- C4, counterexample to the unrestricted claim: with a duplicated node
id the node map collapses the two nodes and the sequence has length 1,
not `nodes.length = 2`. -/
theorem buildPromptOutput_claim_counterexample :
    ¬ (buildPromptOutput c4CexNodes []).sequence.length = c4CexNodes.length := by
  decide

/-- A two-node chain with distinct ids. -/
def c4WitNodes : List RFNode :=
  [⟨"a".data, "promptNode".data, (0, 0), ⟨"system".data, "System".data, "s".data, []⟩⟩,
   ⟨"b".data, "promptNode".data, (0, 100), ⟨"user".data, "User".data, "u".data, []⟩⟩]

def c4WitEdges : List RFEdge :=
  [⟨"e-a-b".data, "a".data, "b".data, "smoothstep".data⟩]

/-- C4, witness: the amended coverage theorem at a concrete two-node
graph. -/
theorem buildPromptOutput_coverage_witness :
    (c4WitNodes.map (·.id)).Nodup ∧
      ((buildPromptOutput c4WitNodes c4WitEdges).sequence.length = c4WitNodes.length ∧
        ∀ n ∈ c4WitNodes,
          ((buildPromptOutput c4WitNodes c4WitEdges).sequence.map SeqItem.id).count n.id
            = 1) :=
  ⟨by decide, buildPromptOutput_coverage c4WitNodes c4WitEdges (by decide)⟩

/-! ### The auto-layout (`autoLayoutNodes`) -/

/-- The `outgoing` adjacency map of `autoLayoutNodes`: edges with a
missing endpoint are skipped. -/
def autoOutgoing (nodes : List RFNode) (edges : List RFEdge) : Str → List Str :=
  edges.foldl
    (fun m e =>
      if (buildNodeMap nodes e.source).isSome && (buildNodeMap nodes e.target).isSome then
        Function.update m e.source (m e.source ++ [e.target])
      else m)
    fun _ => []

/-- The `indegree` map of `autoLayoutNodes` (default 0, as `?? 0`
reads it). -/
def autoIndeg (nodes : List RFNode) (edges : List RFEdge) : Str → Int :=
  edges.foldl
    (fun m e =>
      if (buildNodeMap nodes e.source).isSome && (buildNodeMap nodes e.target).isSome then
        Function.update m e.target (m e.target + 1)
      else m)
    fun _ => 0

/-- The inner target loop of the leveling pass: raise each target to
`nextLevel` if that is higher than (or it has no) current level,
decrement its count, collect the ids whose count reaches exactly zero.
`nextLevel` is computed once per dequeued node (unlike `layoutGraph`,
which re-reads it per target). -/
def autoProcessTargets (nextLevel : Int) :
    List Str → (Str → Int) → (Str → Option Int) →
      ((Str → Int) × (Str → Option Int) × List Str)
  | [], indeg, level => (indeg, level, [])
  | t :: ts, indeg, level =>
    let level' := match level t with
      | none => Function.update level t (some nextLevel)
      | some v => if nextLevel > v then Function.update level t (some nextLevel) else level
    let v := indeg t - 1
    let p := autoProcessTargets nextLevel ts (Function.update indeg t v) level'
    if v = 0 then (p.1, p.2.1, t :: p.2.2) else p

/-- The queue loop of `autoLayoutNodes`: dequeue, track the running
maximum level, process the outgoing targets.  Fuel as in `kahnLoop`. -/
def autoLevelLoop (out : Str → List Str) :
    Nat → List Str → (Str → Int) → (Str → Option Int) → Int → ((Str → Option Int) × Int)
  | 0, _, _, level, maxL => (level, maxL)
  | _ + 1, [], _, level, maxL => (level, maxL)
  | fuel + 1, current :: queue, indeg, level, maxL =>
    let currentLevel := (level current).getD 0
    let p := autoProcessTargets (currentLevel + 1) (out current) indeg level
    autoLevelLoop out fuel (queue ++ p.2.2) p.1 p.2.1 (max maxL currentLevel)

/-- The canvas edges viewed as plain graph edges. -/
def toGEdges (edges : List RFEdge) : List GEdge :=
  edges.map fun e => ⟨e.source, e.target⟩

/-- The level assignment of `autoLayoutNodes` (shared by all three
modes), together with the loop's running maximum: seed the canvas-sorted
zero-indegree queue at level 0, run the queue loop, then place the
still-unleveled nodes (canvas-sorted) at `maxLevel + 1 + index`. -/
def autoLevels (nodes : List RFNode) (edges : List RFEdge) : (Str → Option Int) × Int :=
  let nm := buildNodeMap nodes
  let ids := nodes.map (·.id)
  let queue₀ := sortLe (posLe nm) (ids.filter fun id => decide (autoIndeg nodes edges id = 0))
  let level₀ : Str → Option Int :=
    queue₀.foldl (fun m id => Function.update m id (some 0)) fun _ => none
  let p := autoLevelLoop (autoOutgoing nodes edges) (nodes.length + edges.length + 1)
    queue₀ (autoIndeg nodes edges) level₀ 0
  let unresolved := sortLe (posLe nm) (ids.filter fun id => decide (p.1 id = none))
  let level := unresolved.enum.foldl
    (fun (m : Str → Option Int) q => Function.update m q.2 (some (p.2 + 1 + (q.1 : Int))))
    p.1
  (level, p.2)

/-- `Math.ceil(Math.sqrt(n))` on naturals. -/
def ceilSqrt (n : Nat) : Nat :=
  if Nat.sqrt n * Nat.sqrt n = n then Nat.sqrt n else Nat.sqrt n + 1

/-- The grid-mode node comparator: level, then canvas y, then x. -/
def gridLe (lvlOf : Str → Int) (a b : RFNode) : Bool :=
  decide (lvlOf a.id < lvlOf b.id) ||
    (decide (lvlOf a.id = lvlOf b.id) &&
      (decide (a.position.2 < b.position.2) ||
        (decide (a.position.2 = b.position.2) && decide (a.position.1 ≤ b.position.1))))

/-- `autoLayoutNodes` from the source: level the graph, then place each
node on a grid (grid mode: row-major over the level/canvas-sorted list;
otherwise: level-ascending groups, each canvas-sorted, columns by lane —
swapping the axes in horizontal mode).  Nodes keep everything except
`position`. -/
def autoLayoutNodes (currentNodes : List RFNode) (currentEdges : List RFEdge)
    (mode : Str) : List RFNode :=
  if currentNodes = [] then currentNodes
  else
    let nm := buildNodeMap currentNodes
    let lvlOf : Str → Int := fun id => ((autoLevels currentNodes currentEdges).1 id).getD 0
    if mode = "grid".data then
      let sorted := sortLe (gridLe lvlOf) currentNodes
      let columns : Int := (max 1 (ceilSqrt sorted.length) : Nat)
      let positionById : Str → Option (Int × Int) :=
        sorted.enum.foldl
          (fun m q => Function.update m q.2.id
            (some (100 + (q.1 : Int) % columns * 320, 100 + (q.1 : Int) / columns * 220)))
          fun _ => none
      currentNodes.map fun node =>
        { node with position := (positionById node.id).getD node.position }
    else
      let lvls := sortLe (fun a b => decide (a ≤ b))
        (distinctLevels (currentNodes.map fun n => lvlOf n.id))
      let entries := lvls.flatMap fun l =>
        (sortLe (posLe nm)
            ((currentNodes.filter fun n => decide (lvlOf n.id = l)).map (·.id))).enum.map
          fun q =>
            (q.2,
              if mode = "horizontal".data then (100 + l * 320, 100 + (q.1 : Int) * 220)
              else (100 + (q.1 : Int) * 320, 100 + l * 220))
      let positionById : Str → Option (Int × Int) :=
        entries.foldl (fun m q => Function.update m q.1 (some q.2)) fun _ => none
      currentNodes.map fun node =>
        { node with position := (positionById node.id).getD node.position }

theorem insertLe_perm {α : Type} (le : α → α → Bool) (a : α) :
    ∀ l : List α, List.Perm (insertLe le a l) (a :: l) := by
  intro l
  induction l with
  | nil => exact List.Perm.refl _
  | cons b t ih =>
    simp only [insertLe]
    split
    · exact List.Perm.refl _
    · exact (ih.cons b).trans (List.Perm.swap _ _ _)

theorem sortLe_perm {α : Type} (le : α → α → Bool) :
    ∀ l : List α, List.Perm (sortLe le l) l := by
  intro l
  induction l with
  | nil => exact List.Perm.refl _
  | cons a t ih =>
    exact (insertLe_perm le a (sortLe le t)).trans (ih.cons a)

/-- The Kahn invariant only depends on the queue up to permutation. -/
theorem kahnInv_perm {edges : List GEdge} {ids D queue queue' : List Str}
    {indeg : Str → Int} (hq : List.Perm queue queue')
    (inv : KahnInv edges ids D queue indeg) : KahnInv edges ids D queue' indeg := by
  have hmem : ∀ x, x ∈ D ++ queue' ↔ x ∈ D ++ queue := by
    intro x
    rw [List.mem_append, List.mem_append, hq.mem_iff]
  refine ⟨?_, ?_, ?_, inv.indegEq, ?_⟩
  · exact (((List.Perm.refl D).append hq).nodup_iff).mp inv.nodup
  · intro x hx
    exact inv.memIds x ((hmem x).mp hx)
  · intro x hx e he ht
    exact inv.closed x ((hmem x).mp hx) e he ht
  · intro x hxids hx
    exact inv.blocked x hxids fun h => hx ((hmem x).mpr h)

/-- The level pass's inner loop changes the counter map and the pushes
exactly as the validator's `processTargets` does. -/
theorem autoProcessTargets_counts (nl : Int) :
    ∀ (ts : List Str) (indeg : Str → Int) (level : Str → Option Int),
      (autoProcessTargets nl ts indeg level).1 = (processTargets ts indeg).1 ∧
        (autoProcessTargets nl ts indeg level).2.2 = (processTargets ts indeg).2 := by
  intro ts
  induction ts with
  | nil => intro indeg level; exact ⟨rfl, rfl⟩
  | cons t ts ih =>
    intro indeg level
    obtain ⟨ih1, ih2⟩ := ih (Function.update indeg t (indeg t - 1))
      (match level t with
        | none => Function.update level t (some nl)
        | some v => if nl > v then Function.update level t (some nl) else level)
    simp only [autoProcessTargets, processTargets]
    by_cases hv : indeg t - 1 = 0
    · rw [if_pos hv, if_pos hv]
      exact ⟨ih1, by rw [ih2]⟩
    · rw [if_neg hv, if_neg hv]
      exact ⟨ih1, ih2⟩

/-- Ids outside the target list keep their level. -/
theorem autoProcessTargets_level_notmem (nl : Int) :
    ∀ (ts : List Str) (indeg : Str → Int) (level : Str → Option Int) (x : Str), x ∉ ts →
      (autoProcessTargets nl ts indeg level).2.1 x = level x := by
  intro ts
  induction ts with
  | nil => intro indeg level x _; rfl
  | cons t ts ih =>
    intro indeg level x hx
    have hxt : x ≠ t := fun h => hx (h ▸ List.mem_cons_self _ _)
    have hxts : x ∉ ts := fun h => hx (List.mem_cons_of_mem _ h)
    have hlevel' : (match level t with
        | none => Function.update level t (some nl)
        | some v => if nl > v then Function.update level t (some nl) else level) x
          = level x := by
      cases hlt : level t with
      | none => exact Function.update_noteq hxt _ _
      | some v =>
        by_cases hgt : nl > v
        · simp only [hgt, if_true]
          exact Function.update_noteq hxt _ _
        · simp only [hgt, if_false]
    simp only [autoProcessTargets]
    by_cases hv : indeg t - 1 = 0
    · rw [if_pos hv]
      rw [show ((autoProcessTargets nl ts (Function.update indeg t (indeg t - 1))
          (match level t with
            | none => Function.update level t (some nl)
            | some v => if nl > v then Function.update level t (some nl) else level)).1,
          (autoProcessTargets nl ts (Function.update indeg t (indeg t - 1))
            (match level t with
              | none => Function.update level t (some nl)
              | some v => if nl > v then Function.update level t (some nl) else level)).2.1,
          t :: (autoProcessTargets nl ts (Function.update indeg t (indeg t - 1))
            (match level t with
              | none => Function.update level t (some nl)
              | some v => if nl > v then Function.update level t (some nl) else level)).2.2).2.1
          = (autoProcessTargets nl ts (Function.update indeg t (indeg t - 1))
            (match level t with
              | none => Function.update level t (some nl)
              | some v => if nl > v then Function.update level t (some nl) else level)).2.1
        from rfl]
      rw [ih _ _ x hxts, hlevel']
    · rw [if_neg hv, ih _ _ x hxts, hlevel']

/-- Every target is raised to at least `nextLevel`, never lowered. -/
theorem autoProcessTargets_level_mem (nl : Int) :
    ∀ (ts : List Str) (indeg : Str → Int) (level : Str → Option Int) (x : Str), x ∈ ts →
      ∃ v, (autoProcessTargets nl ts indeg level).2.1 x = some v ∧ nl ≤ v ∧
        ∀ w, level x = some w → w ≤ v := by
  intro ts
  induction ts with
  | nil => intro indeg level x hx; cases hx
  | cons t ts ih =>
    intro indeg level x hx
    have hres : (autoProcessTargets nl (t :: ts) indeg level).2.1 =
        (autoProcessTargets nl ts (Function.update indeg t (indeg t - 1))
          (match level t with
            | none => Function.update level t (some nl)
            | some v => if nl > v then Function.update level t (some nl) else level)).2.1
        := by
      simp only [autoProcessTargets]
      by_cases hv : indeg t - 1 = 0
      · rw [if_pos hv]
      · rw [if_neg hv]
    rw [hres]
    by_cases hxts : x ∈ ts
    · obtain ⟨v, hv, hnl, hmono⟩ := ih (Function.update indeg t (indeg t - 1)) _ x hxts
      refine ⟨v, hv, hnl, ?_⟩
      intro w hw
      by_cases hxt : x = t
      · subst hxt
        rw [hw] at hmono
        by_cases hgt : nl > w
        · have harg : (match (some w : Option Int) with
              | none => Function.update level x (some nl)
              | some v => if nl > v then Function.update level x (some nl) else level) x
              = some nl := by
            show (if nl > w then Function.update level x (some nl) else level) x = some nl
            rw [if_pos hgt, Function.update_same]
          have := hmono nl harg
          omega
        · refine hmono w ?_
          show (if nl > w then Function.update level x (some nl) else level) x = some w
          rw [if_neg hgt]
          exact hw
      · refine hmono w ?_
        cases hlt : level t with
        | none =>
          show Function.update level t (some nl) x = some w
          rw [Function.update_noteq hxt]
          exact hw
        | some v' =>
          show (if nl > v' then Function.update level t (some nl) else level) x = some w
          by_cases hgt : nl > v'
          · rw [if_pos hgt, Function.update_noteq hxt]
            exact hw
          · rw [if_neg hgt]
            exact hw
    · have hxt : x = t := by
        rcases List.mem_cons.mp hx with h | h
        · exact h
        · exact absurd h hxts
      subst hxt
      rw [autoProcessTargets_level_notmem nl ts _ _ x hxts]
      cases hlt : level x with
      | none =>
        refine ⟨nl, ?_, le_refl nl, ?_⟩
        · show Function.update level x (some nl) x = some nl
          rw [Function.update_same]
        · intro w hw
          cases hw
      | some w₀ =>
        by_cases hgt : nl > w₀
        · refine ⟨nl, ?_, le_refl nl, ?_⟩
          · show (if nl > w₀ then Function.update level x (some nl) else level) x = some nl
            rw [if_pos hgt, Function.update_same]
          · intro w hw
            injection hw with hw'
            omega
        · refine ⟨w₀, ?_, by omega, ?_⟩
          · show (if nl > w₀ then Function.update level x (some nl) else level) x = some w₀
            rw [if_neg hgt]
            exact hlt
          · intro w hw
            injection hw with hw'
            omega

/-- With valid endpoints, the skip-guard of `autoOutgoing` never fires
and the map agrees with the plain adjacency of the converted edges. -/
theorem autoOutgoing_aux (nodes : List RFNode) :
    ∀ (edges : List RFEdge) (m : Str → List Str) (id : Str),
      (∀ e ∈ edges, e.source ∈ nodes.map (·.id) ∧ e.target ∈ nodes.map (·.id)) →
      edges.foldl
        (fun (m : Str → List Str) e =>
          if (buildNodeMap nodes e.source).isSome && (buildNodeMap nodes e.target).isSome then
            Function.update m e.source (m e.source ++ [e.target])
          else m) m id
        = m id ++ outgoingOf (toGEdges edges) id := by
  intro edges
  induction edges with
  | nil => intro m id _; simp [toGEdges, outgoingOf]
  | cons e rest ih =>
    intro m id hE
    rw [List.foldl_cons]
    have hve : ((buildNodeMap nodes e.source).isSome &&
        (buildNodeMap nodes e.target).isSome) = true := by
      rw [Bool.and_eq_true]
      exact ⟨(buildNodeMap_isSome nodes e.source).mpr (hE e (List.mem_cons_self _ _)).1,
             (buildNodeMap_isSome nodes e.target).mpr (hE e (List.mem_cons_self _ _)).2⟩
    rw [if_pos hve, ih _ id fun e' he' => hE e' (List.mem_cons_of_mem _ he')]
    have hout : outgoingOf (toGEdges (e :: rest)) id =
        (if e.source = id then [e.target] else []) ++ outgoingOf (toGEdges rest) id := by
      simp only [toGEdges, List.map_cons, outgoingOf, List.filter_cons]
      by_cases hs : e.source = id
      · simp [hs]
      · simp [hs]
    rw [hout]
    by_cases hs : e.source = id
    · subst hs
      rw [Function.update_same]
      simp
    · rw [Function.update_noteq fun h => hs h.symm]
      simp [hs]

theorem autoOutgoing_eq {nodes : List RFNode} {edges : List RFEdge}
    (hE : ∀ e ∈ edges, e.source ∈ nodes.map (·.id) ∧ e.target ∈ nodes.map (·.id)) :
    autoOutgoing nodes edges = outgoingOf (toGEdges edges) := by
  funext id
  unfold autoOutgoing
  rw [autoOutgoing_aux nodes edges _ id hE]
  rfl

/-- With valid endpoints, `autoIndeg` counts exactly the incoming
converted edges. -/
theorem autoIndeg_aux (nodes : List RFNode) :
    ∀ (edges : List RFEdge) (m : Str → Int) (id : Str),
      (∀ e ∈ edges, e.source ∈ nodes.map (·.id) ∧ e.target ∈ nodes.map (·.id)) →
      edges.foldl
        (fun (m : Str → Int) e =>
          if (buildNodeMap nodes e.source).isSome && (buildNodeMap nodes e.target).isSome then
            Function.update m e.target (m e.target + 1)
          else m) m id
        = m id + (indegOf (toGEdges edges) id : Int) := by
  intro edges
  induction edges with
  | nil => intro m id _; simp [toGEdges, indegOf]
  | cons e rest ih =>
    intro m id hE
    rw [List.foldl_cons]
    have hve : ((buildNodeMap nodes e.source).isSome &&
        (buildNodeMap nodes e.target).isSome) = true := by
      rw [Bool.and_eq_true]
      exact ⟨(buildNodeMap_isSome nodes e.source).mpr (hE e (List.mem_cons_self _ _)).1,
             (buildNodeMap_isSome nodes e.target).mpr (hE e (List.mem_cons_self _ _)).2⟩
    rw [if_pos hve, ih _ id fun e' he' => hE e' (List.mem_cons_of_mem _ he')]
    have hind : (indegOf (toGEdges (e :: rest)) id : Int) =
        (if e.target = id then 1 else 0) + (indegOf (toGEdges rest) id : Int) := by
      by_cases ht : e.target = id
      · simp [toGEdges, indegOf, List.countP_cons, ht]
        omega
      · simp [toGEdges, indegOf, List.countP_cons, ht]
    rw [hind]
    by_cases ht : e.target = id
    · subst ht
      rw [Function.update_same, if_pos rfl]
      omega
    · rw [Function.update_noteq fun h => ht h.symm, if_neg ht]
      omega

theorem autoIndeg_eq {nodes : List RFNode} {edges : List RFEdge}
    (hE : ∀ e ∈ edges, e.source ∈ nodes.map (·.id) ∧ e.target ∈ nodes.map (·.id)) :
    autoIndeg nodes edges = initialIndeg (toGEdges edges) := by
  funext id
  unfold autoIndeg initialIndeg
  rw [autoIndeg_aux nodes edges _ id hE]
  simp

/-- Seeding the initial queue at level 0. -/
theorem foldl_levelZero (q : List Str) :
    ∀ (m : Str → Option Int) (x : Str),
      (q.foldl (fun m id => Function.update m id (some 0)) m) x =
        if x ∈ q then some 0 else m x := by
  induction q with
  | nil => intro m x; simp
  | cons a q ih =>
    intro m x
    rw [List.foldl_cons, ih]
    by_cases hx : x ∈ q
    · simp [hx]
    · by_cases hxa : x = a
      · subst hxa
        simp [hx, Function.update_same]
      · simp [hx, hxa, Function.update_noteq hxa]

/-- Main invariant of the leveling loop: starting from a Kahn-invariant
state in which every seen id has a level and every edge out of a dequeued
id already satisfies `level(target) ≥ level(source) + 1`, an acyclic run
with enough fuel levels every id and satisfies that inequality on every
edge. -/
theorem autoLevelLoop_spec {edges : List GEdge} {ids : List Str} (hE : EdgesWithin edges ids)
    (hA : Acyclic edges) :
    ∀ (fuel : Nat) (queue : List Str) (indeg : Str → Int) (level : Str → Option Int)
      (maxL : Int) (D : List Str),
      KahnInv edges ids D queue indeg →
      (∀ x ∈ D ++ queue, ∃ v, level x = some v) →
      (∀ e ∈ edges, e.«from» ∈ D →
        ∃ vs vt, level e.«from» = some vs ∧ level e.«to» = some vt ∧ vs + 1 ≤ vt) →
      ids.length ≤ D.length + fuel →
      (∀ x ∈ ids, ∃ v,
          (autoLevelLoop (outgoingOf edges) fuel queue indeg level maxL).1 x = some v) ∧
        ∀ e ∈ edges,
          ∃ vs vt,
            (autoLevelLoop (outgoingOf edges) fuel queue indeg level maxL).1 e.«from»
              = some vs ∧
            (autoLevelLoop (outgoingOf edges) fuel queue indeg level maxL).1 e.«to»
              = some vt ∧ vs + 1 ≤ vt := by
  intro fuel
  induction fuel with
  | zero =>
    intro queue indeg level maxL D inv hsome hedge hlen
    have hDcov : ∀ x ∈ ids, x ∈ D := by
      have hDn : D.Nodup := (List.nodup_append.mp inv.nodup).1
      have hDs : ∀ y ∈ D, y ∈ ids := fun y hy =>
        inv.memIds y (List.mem_append.mpr (Or.inl hy))
      exact subset_of_card_ge hDn hDs (by omega)
    constructor
    · intro x hx
      exact hsome x (List.mem_append.mpr (Or.inl (hDcov x hx)))
    · intro e he
      exact hedge e he (hDcov e.«from» (hE e he).1)
  | succ fuel ih =>
    intro queue indeg level maxL D inv hsome hedge hlen
    match queue with
    | [] =>
      have hDcov : ∀ x ∈ ids, x ∈ D :=
        kahn_empty_case hE hA [] indeg D inv fun x _ _ => List.not_mem_nil x
      constructor
      · intro x hx
        exact hsome x (List.mem_append.mpr (Or.inl (hDcov x hx)))
      · intro e he
        exact hedge e he (hDcov e.«from» (hE e he).1)
    | current :: queue =>
      have hunf : autoLevelLoop (outgoingOf edges) (fuel + 1) (current :: queue) indeg
          level maxL =
          autoLevelLoop (outgoingOf edges) fuel
            (queue ++ (autoProcessTargets ((level current).getD 0 + 1)
              (outgoingOf edges current) indeg level).2.2)
            (autoProcessTargets ((level current).getD 0 + 1)
              (outgoingOf edges current) indeg level).1
            (autoProcessTargets ((level current).getD 0 + 1)
              (outgoingOf edges current) indeg level).2.1
            (max maxL ((level current).getD 0)) := rfl
      rw [hunf]
      obtain ⟨hc1, hc2⟩ := autoProcessTargets_counts ((level current).getD 0 + 1)
        (outgoingOf edges current) indeg level
      -- the queued head has no unprocessed incoming edge, so current and
      -- every already-seen id lies outside the target list
      have hcurD : current ∉ D := by
        have := inv.nodup
        rw [List.nodup_append] at this
        exact fun h => this.2.2 h (List.mem_cons_self _ _)
      have hfreeze : ∀ x ∈ D ++ current :: queue, x ∉ outgoingOf edges current := by
        intro x hx hmem
        obtain ⟨e, he, hf, ht⟩ := mem_outgoingOf.mp hmem
        have hzero : remInDeg edges D x = 0 :=
          remInDeg_eq_zero_iff.mpr fun e' he' ht' => inv.closed x hx e' he' ht'
        have hpos : 1 ≤ remInDeg edges D x :=
          remInDeg_pos_iff.mpr ⟨e, he, ht, hf ▸ hcurD⟩
        omega
      have hstep := kahnInv_step hE inv
      rw [← hc1, ← hc2] at hstep
      have hsome' : ∀ x ∈ (D ++ [current]) ++
          (queue ++ (autoProcessTargets ((level current).getD 0 + 1)
            (outgoingOf edges current) indeg level).2.2),
          ∃ v, (autoProcessTargets ((level current).getD 0 + 1)
            (outgoingOf edges current) indeg level).2.1 x = some v := by
        intro x hx
        by_cases hxts : x ∈ outgoingOf edges current
        · obtain ⟨v, hv, _, _⟩ := autoProcessTargets_level_mem _ _ indeg level x hxts
          exact ⟨v, hv⟩
        · rw [autoProcessTargets_level_notmem _ _ indeg level x hxts]
          refine hsome x ?_
          rcases List.mem_append.mp hx with hx | hx
          · rcases List.mem_append.mp hx with hx | hx
            · exact List.mem_append.mpr (Or.inl hx)
            · rcases List.mem_singleton.mp hx with rfl
              exact List.mem_append.mpr (Or.inr (List.mem_cons_self _ _))
          · rcases List.mem_append.mp hx with hx | hx
            · exact List.mem_append.mpr (Or.inr (List.mem_cons_of_mem _ hx))
            · exact absurd (processTargets_mem_ts (hc2 ▸ hx)) hxts
      have hedge' : ∀ e ∈ edges, e.«from» ∈ D ++ [current] →
          ∃ vs vt, (autoProcessTargets ((level current).getD 0 + 1)
              (outgoingOf edges current) indeg level).2.1 e.«from» = some vs ∧
            (autoProcessTargets ((level current).getD 0 + 1)
              (outgoingOf edges current) indeg level).2.1 e.«to» = some vt ∧
            vs + 1 ≤ vt := by
        intro e he hf
        rcases List.mem_append.mp hf with hfD | hfc
        · obtain ⟨vs, vt, hvs, hvt, hle⟩ := hedge e he hfD
          have hfn : e.«from» ∉ outgoingOf edges current :=
            hfreeze e.«from» (List.mem_append.mpr (Or.inl hfD))
          have hvs' : (autoProcessTargets ((level current).getD 0 + 1)
              (outgoingOf edges current) indeg level).2.1 e.«from» = some vs := by
            rw [autoProcessTargets_level_notmem _ _ indeg level _ hfn]
            exact hvs
          by_cases htts : e.«to» ∈ outgoingOf edges current
          · obtain ⟨v, hv, _, hmono⟩ :=
              autoProcessTargets_level_mem _ _ indeg level e.«to» htts
            exact ⟨vs, v, hvs', hv, le_trans hle (hmono vt hvt)⟩
          · refine ⟨vs, vt, hvs', ?_, hle⟩
            rw [autoProcessTargets_level_notmem _ _ indeg level _ htts]
            exact hvt
        · rcases List.mem_singleton.mp hfc with hfc'
          have hts : e.«to» ∈ outgoingOf edges current :=
            mem_outgoingOf.mpr ⟨e, he, hfc', rfl⟩
          obtain ⟨vcur, hvcur⟩ := hsome current
            (List.mem_append.mpr (Or.inr (List.mem_cons_self _ _)))
          obtain ⟨v, hv, hnl, _⟩ := autoProcessTargets_level_mem _ _ indeg level e.«to» hts
          have hfr : (autoProcessTargets ((level current).getD 0 + 1)
              (outgoingOf edges current) indeg level).2.1 e.«from» = some vcur := by
            rw [hfc', autoProcessTargets_level_notmem _ _ indeg level _
              (hfreeze current (List.mem_append.mpr (Or.inr (List.mem_cons_self _ _))))]
            exact hvcur
          refine ⟨vcur, v, hfr, hv, ?_⟩
          rw [hvcur] at hnl
          simp only [Option.getD_some] at hnl
          omega
      have hlen' : ids.length ≤ (D ++ [current]).length + fuel := by
        simp only [List.length_append, List.length_singleton]
        omega
      exact ih _ _ _ _ (D ++ [current]) hstep hsome' hedge' hlen'

/-- On an id-unique graph whose edges all have existing endpoints and
whose edge relation is acyclic, the leveling pass assigns every node a
level and every edge satisfies `level(target) ≥ level(source) + 1` (the
unresolved fallback never fires). -/
theorem autoLevels_edge {nodes : List RFNode} {edges : List RFEdge}
    (hnd : (nodes.map (·.id)).Nodup)
    (hE : ∀ e ∈ edges, e.source ∈ nodes.map (·.id) ∧ e.target ∈ nodes.map (·.id))
    (hA : Acyclic (toGEdges edges)) :
    (∀ id ∈ nodes.map (·.id), ∃ v, (autoLevels nodes edges).1 id = some v) ∧
      ∀ e ∈ edges, ∃ vs vt, (autoLevels nodes edges).1 e.source = some vs ∧
        (autoLevels nodes edges).1 e.target = some vt ∧ vs + 1 ≤ vt := by
  have hEW : EdgesWithin (toGEdges edges) (nodes.map (·.id)) := by
    intro ge hge
    obtain ⟨e, he, rfl⟩ := List.mem_map.mp hge
    exact ⟨(hE e he).1, (hE e he).2⟩
  simp only [autoLevels]
  rw [autoOutgoing_eq hE, autoIndeg_eq hE]
  set q0 := sortLe (posLe (buildNodeMap nodes))
    ((nodes.map (·.id)).filter fun id => decide (initialIndeg (toGEdges edges) id = 0))
    with hq0
  set lvl0 := q0.foldl (fun m id => Function.update m id (some (0 : Int))) fun _ => none
    with hlvl0
  set p := autoLevelLoop (outgoingOf (toGEdges edges)) (nodes.length + edges.length + 1) q0
    (initialIndeg (toGEdges edges)) lvl0 0 with hp
  have inv0 : KahnInv (toGEdges edges) (nodes.map (·.id)) [] q0
      (initialIndeg (toGEdges edges)) :=
    kahnInv_perm (sortLe_perm _ _).symm (kahnInv_init _ _ hnd)
  have hsome0 : ∀ x ∈ ([] : List Str) ++ q0, ∃ v, lvl0 x = some v := by
    intro x hx
    rw [List.nil_append] at hx
    rw [hlvl0, foldl_levelZero, if_pos hx]
    exact ⟨0, rfl⟩
  obtain ⟨hcov, hedges⟩ := autoLevelLoop_spec hEW hA (nodes.length + edges.length + 1)
    q0 (initialIndeg (toGEdges edges)) lvl0 0 [] inv0 hsome0
    (fun e he h => absurd h (List.not_mem_nil _))
    (by simp only [List.length_map, List.length_nil]; omega)
  rw [← hp] at hcov hedges
  have hunres : ((nodes.map (·.id)).filter fun id => decide (p.1 id = none)) = [] := by
    rw [List.filter_eq_nil_iff]
    intro id hid
    obtain ⟨v, hv⟩ := hcov id hid
    simp [hv]
  rw [hunres]
  constructor
  · exact hcov
  · intro e he
    obtain ⟨vs, vt, h1, h2, h3⟩ := hedges ⟨e.source, e.target⟩ (List.mem_map.mpr ⟨e, he, rfl⟩)
    exact ⟨vs, vt, h1, h2, h3⟩

/-- C6 (amended): the leveling of `autoLayoutNodes` is deterministic (it
is a pure function of the nodes and edges, so re-running it yields the
same assignment), and on graphs with unique node ids, edges between
existing nodes and an acyclic edge relation, every edge satisfies
`level(target) ≥ level(source) + 1`. -/
theorem autoLayout_leveling (nodes : List RFNode) (edges : List RFEdge)
    (hnd : (nodes.map (·.id)).Nodup)
    (hE : ∀ e ∈ edges, e.source ∈ nodes.map (·.id) ∧ e.target ∈ nodes.map (·.id))
    (hA : Acyclic (toGEdges edges)) :
    autoLevels nodes edges = autoLevels nodes edges ∧
      ∀ e ∈ edges, ((autoLevels nodes edges).1 e.source).getD 0 + 1 ≤
        ((autoLevels nodes edges).1 e.target).getD 0 := by
  obtain ⟨hcov, hedges⟩ := autoLevels_edge hnd hE hA
  refine ⟨rfl, ?_⟩
  intro e he
  obtain ⟨vs, vt, h1, h2, h3⟩ := hedges e he
  rw [h1, h2]
  simp only [Option.getD_some]
  omega

/-- A two-node cycle on the canvas. -/
def c6CexNodes : List RFNode :=
  [⟨"a".data, "promptNode".data, (0, 0), ⟨"user".data, "User".data, "x".data, []⟩⟩,
   ⟨"b".data, "promptNode".data, (0, 100), ⟨"user".data, "User".data, "y".data, []⟩⟩]

def c6CexEdges : List RFEdge :=
  [⟨"e1".data, "a".data, "b".data, "smoothstep".data⟩,
   ⟨"e2".data, "b".data, "a".data, "smoothstep".data⟩]

/-- C6, counterexample to the unrestricted claim: on the two-node cycle
the queue never seeds, so the unresolved fallback assigns levels 1 and 2
by canvas order, and the edge b → a violates
`level(target) ≥ level(source) + 1` (1 < 2 + 1). -/
theorem autoLayout_leveling_claim_counterexample :
    ¬ ∀ e ∈ c6CexEdges, ((autoLevels c6CexNodes c6CexEdges).1 e.source).getD 0 + 1 ≤
        ((autoLevels c6CexNodes c6CexEdges).1 e.target).getD 0 := by
  decide

/-- An acyclic two-node chain on the canvas. -/
def c6WitNodes : List RFNode :=
  [⟨"a".data, "promptNode".data, (0, 0), ⟨"system".data, "System".data, "x".data, []⟩⟩,
   ⟨"b".data, "promptNode".data, (0, 100), ⟨"user".data, "User".data, "y".data, []⟩⟩]

def c6WitEdges : List RFEdge :=
  [⟨"e1".data, "a".data, "b".data, "smoothstep".data⟩]

/-- C6, witness: the amended leveling theorem on the concrete chain. -/
theorem autoLayout_leveling_witness :
    (c6WitNodes.map (·.id)).Nodup ∧
      (autoLevels c6WitNodes c6WitEdges = autoLevels c6WitNodes c6WitEdges ∧
        ∀ e ∈ c6WitEdges, ((autoLevels c6WitNodes c6WitEdges).1 e.source).getD 0 + 1 ≤
          ((autoLevels c6WitNodes c6WitEdges).1 e.target).getD 0) :=
  ⟨by decide,
    autoLayout_leveling c6WitNodes c6WitEdges (by decide) (by decide)
      (acyclic_single (by decide))⟩

/-- Everything of a canvas node except its position. -/
def stripPos (n : RFNode) : Str × Str × NodeData := (n.id, n.type, n.data)

/-- C9: for every node set, edge set and layout mode, `autoLayoutNodes`
keeps each node's id, type and data (role, label, content, listItems)
unchanged — only `position` may differ — and it does not touch the edge
list at all (it only reads `currentEdges` and returns nodes). -/
theorem autoLayoutNodes_frame (nodes : List RFNode) (edges : List RFEdge) (mode : Str) :
    (autoLayoutNodes nodes edges mode).map stripPos = nodes.map stripPos := by
  simp only [autoLayoutNodes]
  split
  · rfl
  · split
    · rw [List.map_map]
      rfl
    · rw [List.map_map]
      rfl

end PromptFlow
